import Mathlib

/-!
Verification development for two cores of the repository:

1. The merge-sort exchange executor
   (rust/batch/src/executor/merge_sort_exchange.rs): a k-way sorted merge
   over N exchange sources producing fixed-size output chunks.
2. The block cache (src/storage/src/hummock/block_cache.rs): a sharded LRU
   cache facade with single-flight get_or_insert_with.

The executor code is embedded directly from merge_sort_exchange.rs.  The
supporting value types it uses (DataChunk with a visibility bitmap,
HeapElem with lexicographic ordering, K_PROCESSING_WINDOW_SIZE) live in
risingwave_common (sort_util.rs), which is not part of the excerpt; those
are modelled from the spec, as are the LruCache shard operations used by
the block cache.

Machine integers (u64 ids, usize indices) are modelled as Nat; column
values as Int.  Fallible Rust code (Result) together with possible panics
(assert!/unwrap) is embedded in the three-outcome type ExecRes.
-/

namespace MergeSort

/-- Modelled from the spec: comparison of two column values in ascending
order (the spec fixes an ordered list of (column, direction) pairs with
lexicographic comparison; values are modelled as Int). -/
def cmpInt (a b : Int) : Ordering :=
  if a < b then .lt else if b < a then .gt else .eq

/-- Modelled from the spec: sort direction of one ordering column. -/
inductive OrderType where
  | Ascending
  | Descending
deriving DecidableEq, Repr

/-- Modelled from the spec: one entry of the OrderingSpec, a column index
together with its direction.  (In the source an OrderPair carries an input
reference expression; for the merge only the referenced column index and
the direction matter.) -/
structure OrderPair where
  col : Nat
  order_type : OrderType
deriving DecidableEq, Repr

/-- A row of a columnar chunk, modelled as the list of its column values. -/
abbrev Row := List Int

/-- Modelled from the spec: directed comparison of two values of one
ordering column. -/
def cmpVal : OrderType → Int → Int → Ordering
  | .Ascending, a, b => cmpInt a b
  | .Descending, a, b => cmpInt b a

/-- Modelled from the spec: lexicographic comparison of two rows under an
OrderingSpec, the comparison used by HeapElem. -/
def cmpRows : List OrderPair → Row → Row → Ordering
  | [], _, _ => .eq
  | p :: ps, a, b =>
    match cmpVal p.order_type (a.getD p.col 0) (b.getD p.col 0) with
    | .eq => cmpRows ps a b
    | o => o

/-- The non-strict order induced by cmpRows: a is at most b when the
comparison does not yield gt. -/
def rowLe (ord : List OrderPair) (a b : Row) : Prop :=
  cmpRows ord a b ≠ .gt

instance (ord : List OrderPair) (a b : Row) : Decidable (rowLe ord a b) := by
  unfold rowLe; infer_instance

theorem cmpInt_refl (a : Int) : cmpInt a a = .eq := by
  simp [cmpInt]

theorem cmpInt_eq_iff (a b : Int) : cmpInt a b = .eq ↔ a = b := by
  unfold cmpInt
  split <;> rename_i h
  · constructor
    · intro hc; exact absurd hc (by simp)
    · intro hc; exfalso; omega
  · split <;> rename_i h2
    · constructor
      · intro hc; exact absurd hc (by simp)
      · intro hc; exfalso; omega
    · constructor
      · intro _; omega
      · intro _; rfl

theorem cmpInt_lt_iff (a b : Int) : cmpInt a b = .lt ↔ a < b := by
  unfold cmpInt
  split <;> rename_i h
  · simp [h]
  · split <;> rename_i h2
    · constructor
      · intro hc; exact absurd hc (by simp)
      · intro hc; exfalso; omega
    · constructor
      · intro hc; exact absurd hc (by simp)
      · intro hc; exfalso; omega

theorem cmpInt_gt_iff (a b : Int) : cmpInt a b = .gt ↔ b < a := by
  unfold cmpInt
  split <;> rename_i h
  · constructor
    · intro hc; exact absurd hc (by simp)
    · intro hc; exfalso; omega
  · split <;> rename_i h2
    · simp [h2]
    · constructor
      · intro hc; exact absurd hc (by simp)
      · intro hc; exfalso; omega

theorem cmpVal_refl (d : OrderType) (a : Int) : cmpVal d a a = .eq := by
  cases d <;> simp [cmpVal, cmpInt_refl]

theorem cmpVal_eq_symm {d : OrderType} {a b : Int}
    (h : cmpVal d a b = .eq) : a = b := by
  cases d <;> simp only [cmpVal] at h
  · exact (cmpInt_eq_iff a b).mp h
  · exact ((cmpInt_eq_iff b a).mp h).symm

theorem cmpVal_lt_trans {d : OrderType} {a b c : Int}
    (h1 : cmpVal d a b = .lt) (h2 : cmpVal d b c = .lt) :
    cmpVal d a c = .lt := by
  cases d <;> simp only [cmpVal, cmpInt_lt_iff] at * <;> omega

theorem cmpRows_refl (ord : List OrderPair) (a : Row) :
    cmpRows ord a a = .eq := by
  induction ord with
  | nil => rfl
  | cons p ps ih => simp [cmpRows, cmpVal_refl, ih]

theorem cmpRows_eq_congr_left {ord : List OrderPair} {a b : Row}
    (h : cmpRows ord a b = .eq) (c : Row) :
    cmpRows ord a c = cmpRows ord b c := by
  induction ord with
  | nil => rfl
  | cons p ps ih =>
    simp only [cmpRows] at h ⊢
    rcases hv : cmpVal p.order_type (a.getD p.col 0) (b.getD p.col 0) with _ | _ | _ <;>
      rw [hv] at h
    · exact absurd h (by simp)
    · rw [cmpVal_eq_symm hv]
      rcases hw : cmpVal p.order_type (b.getD p.col 0) (c.getD p.col 0) with _ | _ | _ <;>
        simp [ih h]
    · exact absurd h (by simp)

theorem cmpRows_eq_congr_right {ord : List OrderPair} {b c : Row}
    (h : cmpRows ord b c = .eq) (a : Row) :
    cmpRows ord a b = cmpRows ord a c := by
  induction ord with
  | nil => rfl
  | cons p ps ih =>
    simp only [cmpRows] at h ⊢
    rcases hv : cmpVal p.order_type (b.getD p.col 0) (c.getD p.col 0) with _ | _ | _ <;>
      rw [hv] at h
    · exact absurd h (by simp)
    · rw [← cmpVal_eq_symm hv]
      rcases hw : cmpVal p.order_type (a.getD p.col 0) (b.getD p.col 0) with _ | _ | _ <;>
        simp [ih h]
    · exact absurd h (by simp)

theorem cmpRows_lt_trans {ord : List OrderPair} {a b c : Row}
    (h1 : cmpRows ord a b = .lt) (h2 : cmpRows ord b c = .lt) :
    cmpRows ord a c = .lt := by
  induction ord with
  | nil => exact absurd h1 (by simp [cmpRows])
  | cons p ps ih =>
    simp only [cmpRows] at h1 h2 ⊢
    rcases hv : cmpVal p.order_type (a.getD p.col 0) (b.getD p.col 0) with _ | _ | _ <;>
      rw [hv] at h1
    · rcases hw : cmpVal p.order_type (b.getD p.col 0) (c.getD p.col 0) with _ | _ | _ <;>
        rw [hw] at h2
      · rw [cmpVal_lt_trans hv hw]
      · rw [← cmpVal_eq_symm hw, hv]
      · exact absurd h2 (by simp)
    · rcases hw : cmpVal p.order_type (b.getD p.col 0) (c.getD p.col 0) with _ | _ | _ <;>
        rw [hw] at h2
      · rw [cmpVal_eq_symm hv, hw]
      · rw [cmpVal_eq_symm hv, hw]
        exact ih h1 h2
      · exact absurd h2 (by simp)
    · exact absurd h1 (by simp)

theorem cmpRows_swap (ord : List OrderPair) (a b : Row) :
    cmpRows ord a b = (cmpRows ord b a).swap := by
  induction ord with
  | nil => rfl
  | cons p ps ih =>
    simp only [cmpRows]
    have hswap : ∀ x y : Int, ∀ d, cmpVal d x y = (cmpVal d y x).swap := by
      intro x y d
      cases d <;> simp only [cmpVal] <;> unfold cmpInt <;>
        (split <;> rename_i h1) <;> (split <;> rename_i h2) <;>
        simp [Ordering.swap] <;> omega
    rw [hswap]
    rcases cmpVal p.order_type (b.getD p.col 0) (a.getD p.col 0) with _ | _ | _ <;>
      simp [Ordering.swap, ih]

theorem rowLe_refl (ord : List OrderPair) (a : Row) : rowLe ord a a := by
  simp [rowLe, cmpRows_refl]

theorem rowLe_total (ord : List OrderPair) (a b : Row) :
    rowLe ord a b ∨ rowLe ord b a := by
  unfold rowLe
  rw [cmpRows_swap ord a b]
  rcases cmpRows ord b a with _ | _ | _ <;> simp [Ordering.swap]

theorem rowLe_trans {ord : List OrderPair} {a b c : Row}
    (h1 : rowLe ord a b) (h2 : rowLe ord b c) : rowLe ord a c := by
  unfold rowLe at *
  intro hac
  rcases hab : cmpRows ord a b with _ | _ | _
  · rcases hbc : cmpRows ord b c with _ | _ | _
    · exact absurd hac (by rw [cmpRows_lt_trans hab hbc]; simp)
    · rw [← cmpRows_eq_congr_right hbc a] at hac
      exact absurd hac (by rw [hab]; simp)
    · exact h2 hbc
  · rw [cmpRows_eq_congr_left hab c] at hac
    exact h2 hac
  · exact h1 hab

/-- If cmpRows yields lt, the reverse direction is not at most: used to
drive the minimum selection. -/
theorem rowLe_of_cmp_lt {ord : List OrderPair} {a b : Row}
    (h : cmpRows ord a b = .lt) : rowLe ord a b := by
  simp [rowLe, h]

theorem rowLe_of_not_lt {ord : List OrderPair} {a b : Row}
    (h : cmpRows ord a b ≠ .lt) : rowLe ord b a := by
  unfold rowLe
  rw [cmpRows_swap ord b a]
  rcases hab : cmpRows ord a b with _ | _ | _ <;> simp [Ordering.swap]
  exact h hab

/-- Modelled from the spec: an immutable columnar batch with a per-row
visibility bitmap.  Each row carries its values together with its
visibility flag; cardinality is the count of visible rows. -/
structure DataChunk where
  rows : List (Row × Bool)
deriving DecidableEq, Repr

/-- Modelled from the spec: the count of visible rows of a chunk. -/
def DataChunk.cardinality (c : DataChunk) : Nat :=
  (c.rows.filter (fun r => r.2)).length

/-- Helper recursion for next_visible_row_idx: first index at or after
start whose row is visible, scanning the row list structurally. -/
def nextVisAux : List (Row × Bool) → Nat → Option Nat
  | [], _ => none
  | r :: rest, 0 =>
    if r.2 then some 0 else (nextVisAux rest 0).map (· + 1)
  | _ :: rest, k + 1 => (nextVisAux rest k).map (· + 1)

/-- Modelled from the spec: the first visible row index at or after start,
or none. -/
def DataChunk.next_visible_row_idx (c : DataChunk) (start : Nat) : Option Nat :=
  nextVisAux c.rows start

/-- The visible rows of a row list, in order. -/
def visRows (l : List (Row × Bool)) : List Row :=
  (l.filter (fun r => r.2)).map (fun r => r.1)

/-- The visible rows of a chunk from row index k on (a proof-side view of
the chunk used to account for what the merge still has to emit). -/
def chunkVisFrom (c : DataChunk) (k : Nat) : List Row :=
  visRows (c.rows.drop k)

/-- The row value at a given index of a chunk (what value_at followed by
the column builders reconstruct). -/
def rowAt (c : DataChunk) (i : Nat) : Row :=
  (c.rows.getD i ([], false)).1

/-- Visibility of the row at a given index. -/
def visAt (c : DataChunk) (i : Nat) : Bool :=
  (c.rows.getD i ([], false)).2

theorem visRows_cons_visible {r : Row × Bool} (l : List (Row × Bool))
    (h : r.2 = true) : visRows (r :: l) = r.1 :: visRows l := by
  simp [visRows, h]

theorem visRows_cons_hidden {r : Row × Bool} (l : List (Row × Bool))
    (h : r.2 = false) : visRows (r :: l) = visRows l := by
  simp [visRows, h]

theorem nextVisAux_none_iff (l : List (Row × Bool)) (k : Nat) :
    nextVisAux l k = none ↔ visRows (l.drop k) = [] := by
  induction l generalizing k with
  | nil => simp [nextVisAux, visRows]
  | cons r rest ih =>
    cases k with
    | zero =>
      by_cases hv : r.2
      · simp [nextVisAux, hv, visRows_cons_visible rest hv]
      · have hv' : r.2 = false := by simpa using hv
        have hstep : nextVisAux (r :: rest) 0 = (nextVisAux rest 0).map (· + 1) := by
          simp [nextVisAux, hv']
        rw [hstep, List.drop_zero, visRows_cons_hidden rest hv']
        rcases hx : nextVisAux rest 0 with _ | j
        · have := (ih 0).mp hx
          rw [List.drop_zero] at this
          simp [this]
        · have hne : ¬ visRows rest = [] := by
            intro hc
            have := (ih 0).mpr (by rw [List.drop_zero]; exact hc)
            rw [hx] at this
            exact absurd this (by simp)
          simp [hne]
    | succ k =>
      have hstep : nextVisAux (r :: rest) (k + 1) = (nextVisAux rest k).map (· + 1) := rfl
      rw [hstep, List.drop_succ_cons]
      rcases hx : nextVisAux rest k with _ | j
      · simp [(ih k).mp hx]
      · have hne : ¬ visRows (rest.drop k) = [] := by
          intro hc
          have := (ih k).mpr hc
          rw [hx] at this
          exact absurd this (by simp)
        simp [hne]

theorem nextVisAux_some_spec {l : List (Row × Bool)} {k j : Nat}
    (h : nextVisAux l k = some j) :
    k ≤ j ∧ j < l.length ∧ (l.getD j ([], false)).2 = true ∧
      visRows (l.drop k) = visRows (l.drop j) := by
  induction l generalizing k j with
  | nil => exact absurd h (by simp [nextVisAux])
  | cons r rest ih =>
    cases k with
    | zero =>
      by_cases hv : r.2
      · simp only [nextVisAux, if_pos hv] at h
        injection h with h
        subst h
        exact ⟨Nat.le_refl 0, by simp, by simpa using hv, rfl⟩
      · have hv' : r.2 = false := by simpa using hv
        simp only [nextVisAux, hv', Bool.false_eq_true, if_false] at h
        rcases hx : nextVisAux rest 0 with _ | j'
        · rw [hx] at h; exact absurd h (by simp)
        · rw [hx] at h
          have h : j' + 1 = j := by simpa using h
          obtain ⟨_, hlen, hget, hvis⟩ := ih hx
          subst h
          refine ⟨Nat.zero_le _, by simpa using Nat.succ_lt_succ hlen, ?_, ?_⟩
          · simpa using hget
          · rw [List.drop_zero, visRows_cons_hidden rest hv',
              List.drop_succ_cons]
            simpa using hvis
    | succ k =>
      simp only [nextVisAux] at h
      rcases hx : nextVisAux rest k with _ | j'
      · rw [hx] at h; exact absurd h (by simp)
      · rw [hx] at h
        have h : j' + 1 = j := by simpa using h
        obtain ⟨hk, hlen, hget, hvis⟩ := ih hx
        subst h
        refine ⟨Nat.succ_le_succ hk, by simpa using Nat.succ_lt_succ hlen, ?_, ?_⟩
        · simpa using hget
        · rw [List.drop_succ_cons, List.drop_succ_cons]
          exact hvis

theorem next_visible_none_iff (c : DataChunk) (k : Nat) :
    c.next_visible_row_idx k = none ↔ chunkVisFrom c k = [] :=
  nextVisAux_none_iff c.rows k

theorem next_visible_some_spec {c : DataChunk} {k j : Nat}
    (h : c.next_visible_row_idx k = some j) :
    k ≤ j ∧ j < c.rows.length ∧ visAt c j = true ∧
      chunkVisFrom c k = chunkVisFrom c j :=
  nextVisAux_some_spec h

theorem chunkVisFrom_zero_ne_nil_of_card {c : DataChunk}
    (h : 0 < c.cardinality) : chunkVisFrom c 0 ≠ [] := by
  unfold chunkVisFrom visRows
  unfold DataChunk.cardinality at h
  simp only [List.drop_zero]
  intro hc
  rw [List.map_eq_nil_iff] at hc
  rw [hc] at h
  simp at h

theorem next_visible_zero_of_card {c : DataChunk} (h : 0 < c.cardinality) :
    ∃ j, c.next_visible_row_idx 0 = some j := by
  rcases hx : c.next_visible_row_idx 0 with _ | j
  · rw [next_visible_none_iff] at hx
    exact absurd hx (chunkVisFrom_zero_ne_nil_of_card h)
  · exact ⟨j, rfl⟩

theorem visAt_chunkVisFrom {c : DataChunk} {j : Nat}
    (hlen : j < c.rows.length) (hvis : visAt c j = true) :
    chunkVisFrom c j = rowAt c j :: chunkVisFrom c (j + 1) := by
  unfold chunkVisFrom rowAt
  have hdrop : c.rows.drop j = c.rows.getD j ([], false) :: c.rows.drop (j + 1) := by
    rw [List.getD_eq_getElem _ _ hlen]
    exact (List.drop_eq_getElem_cons hlen)
  rw [hdrop]
  unfold visAt at hvis
  rw [visRows_cons_visible _ hvis]

/-- Modelled from the spec: a heap cursor: a shared chunk handle, its
source index and the row index it points at.  The ordering spec is shared
by all elements of one merge and is threaded as a parameter instead of
being stored in each element. -/
structure HeapElem where
  chunk : DataChunk
  chunk_idx : Nat
  elem_idx : Nat
deriving DecidableEq, Repr

/-- The row an element points at. -/
def elemRow (e : HeapElem) : Row := rowAt e.chunk e.elem_idx

/-- Modelled from the spec: extraction of a minimal element (pop of the
min-heap).  Given a candidate and the remaining elements it returns a
minimal element under cmpRows together with the others. -/
def selectMin (ord : List OrderPair) : HeapElem → List HeapElem →
    HeapElem × List HeapElem
  | e, [] => (e, [])
  | e, f :: rest =>
    if cmpRows ord (elemRow f) (elemRow e) = .lt then
      let p := selectMin ord f rest
      (p.1, e :: p.2)
    else
      let p := selectMin ord e rest
      (p.1, f :: p.2)

/-- Modelled from the spec: pop of the min-heap; none exactly when the
heap is empty. -/
def popMin (ord : List OrderPair) : List HeapElem →
    Option (HeapElem × List HeapElem)
  | [] => none
  | e :: rest => some (selectMin ord e rest)

theorem selectMin_perm (ord : List OrderPair) (e : HeapElem)
    (l : List HeapElem) :
    ((selectMin ord e l).1 :: (selectMin ord e l).2).Perm (e :: l) := by
  induction l generalizing e with
  | nil => simp [selectMin]
  | cons f rest ih =>
    unfold selectMin
    split
    · refine List.Perm.trans ?_ (List.Perm.swap e f rest)
      exact List.Perm.trans (List.Perm.swap _ _ _).symm
        ((ih f).cons e) |>.trans (List.Perm.swap _ _ _)
    · exact List.Perm.trans (List.Perm.swap _ _ _).symm ((ih e).cons f)
      |>.trans (List.Perm.swap _ _ _)

theorem selectMin_min (ord : List OrderPair) (e : HeapElem)
    (l : List HeapElem) :
    ∀ x ∈ e :: l, rowLe ord (elemRow (selectMin ord e l).1) (elemRow x) := by
  induction l generalizing e with
  | nil =>
    intro x hx
    rw [List.mem_singleton] at hx
    subst hx
    simp [selectMin, rowLe_refl]
  | cons f rest ih =>
    intro x hx
    rw [List.mem_cons] at hx
    unfold selectMin
    split <;> rename_i hcmp
    · rcases hx with rfl | hx
      · exact rowLe_trans (ih f f (by simp)) (rowLe_of_cmp_lt hcmp)
      · exact ih f x hx
    · rcases hx with rfl | hx
      · exact ih x x (by simp)
      · rw [List.mem_cons] at hx
        rcases hx with rfl | hx
        · exact rowLe_trans (ih e e (by simp)) (rowLe_of_not_lt hcmp)
        · exact ih e x (by simp [hx])

theorem popMin_none_iff (ord : List OrderPair) (h : List HeapElem) :
    popMin ord h = none ↔ h = [] := by
  cases h <;> simp [popMin]

theorem popMin_perm {ord : List OrderPair} {h : List HeapElem}
    {top : HeapElem} {rest : List HeapElem}
    (hp : popMin ord h = some (top, rest)) : (top :: rest).Perm h := by
  cases h with
  | nil => exact absurd hp (by simp [popMin])
  | cons e l =>
    unfold popMin at hp
    injection hp with hp
    have := selectMin_perm ord e l
    rw [show (selectMin ord e l).1 = top by rw [hp],
        show (selectMin ord e l).2 = rest by rw [hp]] at this
    exact this

theorem popMin_min {ord : List OrderPair} {h : List HeapElem}
    {top : HeapElem} {rest : List HeapElem}
    (hp : popMin ord h = some (top, rest)) :
    ∀ x ∈ h, rowLe ord (elemRow top) (elemRow x) := by
  cases h with
  | nil => exact absurd hp (by simp [popMin])
  | cons e l =>
    unfold popMin at hp
    injection hp with hp
    intro x hx
    have := selectMin_min ord e l x hx
    rw [show (selectMin ord e l).1 = top by rw [hp]] at this
    exact this

/-- Outcome of a piece of executor code: a value, a propagated Err of the
Rust Result, or a panic (a failed assert! or unwrap). -/
inductive ExecRes (α : Type) where
  | ok (a : α)
  | err
  | panic
deriving DecidableEq, Repr

/-- Sequencing of fallible executor code: Err and panics short-circuit,
exactly as the question-mark operator and a panic do in the source. -/
def ExecRes.bind {α β : Type} : ExecRes α → (α → ExecRes β) → ExecRes β
  | .ok a, f => f a
  | .err, _ => .err
  | .panic, _ => .panic

instance : Monad ExecRes where
  pure := ExecRes.ok
  bind := ExecRes.bind

/-- One event of an exchange source: a successfully fetched chunk, or a
fetch error.  A source that has run out of events answers end-of-stream,
matching take_data returning Ok(None). -/
inductive SrcEvent where
  | chunk (c : DataChunk)
  | fail
deriving DecidableEq, Repr

/-- The executor state of MergeSortExchangeExecutorImpl: one buffered
chunk per source, the min-heap of cursors, the per-source streams of
still-unfetched events (standing in for the remote sources), and the
first_execution flag.  The ordering spec is threaded as a parameter. -/
structure MergeState where
  source_inputs : List (Option DataChunk)
  min_heap : List HeapElem
  sources : List (List SrcEvent)
  first_execution : Bool
deriving DecidableEq, Repr

/-- take_data of one modelled source: the next event, or Ok(None) at
end-of-stream. -/
def take_data : List SrcEvent → ExecRes (Option DataChunk × List SrcEvent)
  | [] => .ok (none, [])
  | .chunk c :: rest => .ok (some c, rest)
  | .fail :: _ => .err

/-- Embeds MergeSortExchangeExecutorImpl::get_source_chunk: asserts the
index is in range, pulls one event from the source, asserts a fetched
chunk is not empty, and replaces the buffered chunk (Some on a chunk,
None at end-of-stream). -/
def get_source_chunk (st : MergeState) (source_idx : Nat) : ExecRes MergeState :=
  if source_idx < st.source_inputs.length then
    match take_data (st.sources.getD source_idx []) with
    | .ok (some c, rest) =>
      if c.cardinality = 0 then .panic
      else .ok { st with
        source_inputs := st.source_inputs.set source_idx (some c),
        sources := st.sources.set source_idx rest }
    | .ok (none, rest) =>
      .ok { st with
        source_inputs := st.source_inputs.set source_idx none,
        sources := st.sources.set source_idx rest }
    | .err => .err
    | .panic => .panic
  else .panic

/-- Embeds MergeSortExchangeExecutorImpl::push_row_into_heap: asserts the
index is in range, unwraps the buffered chunk and pushes a cursor at
row_idx onto the heap. -/
def push_row_into_heap (st : MergeState) (source_idx row_idx : Nat) :
    ExecRes MergeState :=
  if source_idx < st.source_inputs.length then
    match st.source_inputs.getD source_idx none with
    | some c =>
      .ok { st with min_heap :=
        { chunk := c, chunk_idx := source_idx, elem_idx := row_idx } :: st.min_heap }
    | none => .panic
  else .panic

/-- Embeds the shared shape of lines 101-107 and 152-155 of next(): if the
slot of the given source holds a chunk, push its first visible row
(unwrap of next_visible_row_idx(0)); an empty slot contributes nothing. -/
def seed_from_slot (st : MergeState) (source_idx : Nat) : ExecRes MergeState :=
  match st.source_inputs.getD source_idx none with
  | some c =>
    match c.next_visible_row_idx 0 with
    | some r => push_row_into_heap st source_idx r
    | none => .panic
  | none => .ok st

/-- Embeds the body of the first_execution loop of next() for one source
index: fetch one chunk and, if one arrived, push its first visible row. -/
def init_source (st : MergeState) (source_idx : Nat) : ExecRes MergeState := do
  let st1 ← get_source_chunk st source_idx
  seed_from_slot st1 source_idx

/-- The first_execution loop of next(), iterating over the remaining
source indices (fuel counts how many indices are left). -/
def initAux (st : MergeState) (i : Nat) : Nat → ExecRes MergeState
  | 0 => .ok st
  | fuel + 1 => do
    let st1 ← init_source st i
    initAux st1 (i + 1) fuel

/-- The whole first_execution block of next(): create each source and
seed the heap with one row per non-exhausted source. -/
def initAll (st : MergeState) : ExecRes MergeState :=
  initAux st 0 st.sources.length

/-- Embeds the cursor-advance part of the production loop (lines 144-157
of merge_sort_exchange.rs): after the top cursor of the heap was popped
and its row appended, either push the next visible row of the same chunk,
or fetch a fresh chunk from the same source and push its first visible
row. -/
def advance (st : MergeState) (top : HeapElem) :
    ExecRes MergeState :=
  match top.chunk.next_visible_row_idx (top.elem_idx + 1) with
  | some next_row_idx => push_row_into_heap st top.chunk_idx next_row_idx
  | none => do
    let st1 ← get_source_chunk st top.chunk_idx
    seed_from_slot st1 top.chunk_idx

/-- Embeds the production loop of next(): while want_to_produce > 0 and
the heap is non-empty, pop the minimum cursor, append its row to the
builders and advance the cursor.  Returns the final state and the rows
appended, in order. -/
def produce (ord : List OrderPair) : MergeState → Nat →
    ExecRes (MergeState × List Row)
  | st, 0 => .ok (st, [])
  | st, want + 1 =>
    match popMin ord st.min_heap with
    | none => .ok (st, [])
    | some (top, rest) => do
      let st1 ← advance { st with min_heap := rest } top
      let (st2, rows) ← produce ord st1 want
      .ok (st2, elemRow top :: rows)

/-- Embeds Executor::next of MergeSortExchangeExecutorImpl.  window is
K_PROCESSING_WINDOW_SIZE.  Returns the new state together with Some rows
of the built chunk, or None at end-of-stream. -/
def nextChunk (ord : List OrderPair) (window : Nat) (st : MergeState) :
    ExecRes (MergeState × Option (List Row)) := do
  let st1 ←
    if st.first_execution then do
      let st0 ← initAll st
      pure { st0 with first_execution := false }
    else pure st
  if st1.min_heap.isEmpty then
    .ok (st1, none)
  else do
    let (st2, rows) ← produce ord st1 window
    .ok (st2, some rows)

/-- Modelled from the spec: K_PROCESSING_WINDOW_SIZE, the construction
time output window constant of sort_util (default 1024). -/
def K_PROCESSING_WINDOW_SIZE : Nat := 1024

/-- Successive calls of next() until the first None or until fuel runs
out: returns the final state, the chunks produced, and whether the
executor signalled end-of-stream. -/
def run (ord : List OrderPair) (window : Nat) :
    MergeState → Nat → ExecRes (MergeState × List (List Row) × Bool)
  | st, 0 => .ok (st, [], false)
  | st, calls + 1 => do
    let (st1, res) ← nextChunk ord window st
    match res with
    | none => .ok (st1, [], true)
    | some rows => do
      let (st2, chunks, ended) ← run ord window st1 calls
      .ok (st2, rows :: chunks, ended)

/-- The state new_boxed_executor builds: one empty slot per source, an
empty heap and first_execution set. -/
def mkInitialState (streams : List (List SrcEvent)) : MergeState :=
  { source_inputs := streams.map (fun _ => none),
    min_heap := [],
    sources := streams,
    first_execution := true }

/-- The visible rows a modelled source will emit over its lifetime, in
order (fetch errors deliver no rows). -/
def streamVis : List SrcEvent → List Row
  | [] => []
  | .chunk c :: rest => chunkVisFrom c 0 ++ streamVis rest
  | .fail :: rest => streamVis rest

/-- One event respecting the exchange-source contract: a chunk with at
least one visible row (not a fetch error, not an empty chunk). -/
def goodEvent : SrcEvent → Prop
  | .chunk c => 0 < c.cardinality
  | .fail => False

instance : DecidablePred goodEvent := by
  intro ev
  cases ev <;> unfold goodEvent <;> infer_instance

/-- The contract of an exchange source assumed by the executor: every
take_data answer is a chunk with at least one visible row (no fetch
errors, never an empty chunk). -/
def goodStream (s : List SrcEvent) : Prop :=
  ∀ ev ∈ s, goodEvent ev

instance (s : List SrcEvent) : Decidable (goodStream s) :=
  List.decidableBAll _ s

theorem getD_set_eq {α : Type _} :
    ∀ (l : List α) (i : Nat) (a d : α), i < l.length →
      (l.set i a).getD i d = a := by
  intro l
  induction l with
  | nil => intro i a d h; simp at h
  | cons x xs ih =>
    intro i a d h
    cases i with
    | zero => simp
    | succ i =>
      simp only [List.set_cons_succ, List.getD_cons_succ]
      exact ih i a d (by simpa using h)

theorem getD_set_ne {α : Type _} :
    ∀ (l : List α) {i j : Nat} (a d : α), i ≠ j →
      (l.set i a).getD j d = l.getD j d := by
  intro l
  induction l with
  | nil => intro i j a d _; simp
  | cons x xs ih =>
    intro i j a d h
    cases i with
    | zero =>
      cases j with
      | zero => exact absurd rfl h
      | succ j => simp
    | succ i =>
      cases j with
      | zero => simp
      | succ j =>
        simp only [List.set_cons_succ, List.getD_cons_succ]
        exact ih a d (by omega)

/-- The heap cursor of a given source index, if present. -/
def heapElemFor (heap : List HeapElem) (i : Nat) : Option HeapElem :=
  heap.find? (fun e => e.chunk_idx == i)

theorem heapElemFor_nil (i : Nat) : heapElemFor [] i = none := rfl

theorem heapElemFor_cons_eq {e : HeapElem} (heap : List HeapElem) {i : Nat}
    (h : e.chunk_idx = i) : heapElemFor (e :: heap) i = some e := by
  unfold heapElemFor
  rw [List.find?_cons_of_pos]
  simpa using h

theorem heapElemFor_cons_ne {e : HeapElem} (heap : List HeapElem) {i : Nat}
    (h : e.chunk_idx ≠ i) : heapElemFor (e :: heap) i = heapElemFor heap i := by
  unfold heapElemFor
  rw [List.find?_cons_of_neg]
  simpa using h

theorem heapElemFor_none_iff (heap : List HeapElem) (i : Nat) :
    heapElemFor heap i = none ↔ ∀ e ∈ heap, e.chunk_idx ≠ i := by
  unfold heapElemFor
  rw [List.find?_eq_none]
  constructor
  · intro h e he
    have := h e he
    simpa using this
  · intro h e he
    have := h e he
    simpa using this

theorem heapElemFor_some_iff {heap : List HeapElem}
    (hd : heap.Pairwise (fun a b => a.chunk_idx ≠ b.chunk_idx)) {i : Nat}
    {e : HeapElem} :
    heapElemFor heap i = some e ↔ e ∈ heap ∧ e.chunk_idx = i := by
  induction heap with
  | nil => simp [heapElemFor_nil]
  | cons f rest ih =>
    rw [List.pairwise_cons] at hd
    by_cases hf : f.chunk_idx = i
    · rw [heapElemFor_cons_eq rest hf]
      constructor
      · intro h
        injection h with h
        exact ⟨by simp [h], by rw [← h]; exact hf⟩
      · rintro ⟨hmem, hidx⟩
        rw [List.mem_cons] at hmem
        rcases hmem with rfl | hmem
        · rfl
        · exact absurd (hidx.trans hf.symm) (hd.1 e hmem).symm
    · rw [heapElemFor_cons_ne rest hf]
      rw [ih hd.2]
      constructor
      · rintro ⟨hmem, hidx⟩
        exact ⟨List.mem_cons_of_mem f hmem, hidx⟩
      · rintro ⟨hmem, hidx⟩
        rw [List.mem_cons] at hmem
        rcases hmem with rfl | hmem
        · exact absurd hidx hf
        · exact ⟨hmem, hidx⟩

/-- What source i still has to deliver: the unemitted visible rows of its
buffered chunk (from the heap cursor on) followed by the visible rows of
its still-unfetched stream.  A source with no heap cursor contributes
nothing (the invariant shows it is fully drained). -/
def rem (st : MergeState) (i : Nat) : List Row :=
  match heapElemFor st.min_heap i with
  | some e => chunkVisFrom e.chunk e.elem_idx ++ streamVis (st.sources.getD i [])
  | none => []

/-- All rows the merge still has to emit, over all sources. -/
def joinRems (st : MergeState) : List Row :=
  ((List.range st.sources.length).map (fun i => rem st i)).flatten

/-- Structural state invariant of the merge executor between next() calls
(after initialization) and between production-loop iterations. -/
structure InvCore (st : MergeState) : Prop where
  len_eq : st.source_inputs.length = st.sources.length
  helem : ∀ e ∈ st.min_heap,
    e.chunk_idx < st.sources.length ∧
    st.source_inputs.getD e.chunk_idx none = some e.chunk ∧
    e.elem_idx < e.chunk.rows.length ∧
    visAt e.chunk e.elem_idx = true
  distinct : st.min_heap.Pairwise (fun a b => a.chunk_idx ≠ b.chunk_idx)
  drained : ∀ i < st.sources.length,
    (∀ e ∈ st.min_heap, e.chunk_idx ≠ i) → st.sources.getD i [] = []
  good : ∀ i, goodStream (st.sources.getD i [])

/-- Each source's still-to-emit rows are sorted (holds when each source
emits a sorted stream and is maintained by the merge). -/
def remSorted (ord : List OrderPair) (st : MergeState) : Prop :=
  ∀ i, (rem st i).Sorted (rowLe ord)

theorem joinRems_of_heap_nil {st : MergeState} (h : st.min_heap = []) :
    joinRems st = [] := by
  unfold joinRems
  have : ∀ i, rem st i = [] := by
    intro i
    unfold rem
    rw [h, heapElemFor_nil]
  rw [List.flatten_eq_nil_iff]
  intro l hl
  rw [List.mem_map] at hl
  obtain ⟨i, _, hi⟩ := hl
  rw [← hi]
  exact this i

theorem mem_joinRems {st : MergeState} {x : Row} :
    x ∈ joinRems st ↔ ∃ i < st.sources.length, x ∈ rem st i := by
  unfold joinRems
  rw [List.mem_flatten]
  constructor
  · rintro ⟨l, hl, hx⟩
    rw [List.mem_map] at hl
    obtain ⟨i, hi, rfl⟩ := hl
    rw [List.mem_range] at hi
    exact ⟨i, hi, hx⟩
  · rintro ⟨i, hi, hx⟩
    exact ⟨rem st i, List.mem_map_of_mem _ (List.mem_range.mpr hi), hx⟩

theorem join_map_range_perm {f g : Nat → List Row} {a : Row} :
    ∀ {n i0 : Nat}, i0 < n → f i0 = a :: g i0 →
      (∀ j, j ≠ i0 → f j = g j) →
      (((List.range n).map f).flatten).Perm (a :: ((List.range n).map g).flatten) := by
  intro n
  induction n with
  | zero => intro i0 h; omega
  | succ n ih =>
    intro i0 hi0 heq hother
    rw [List.range_succ, List.map_append, List.map_append,
      List.flatten_append, List.flatten_append]
    by_cases hn : i0 = n
    · have hpre : (List.range n).map f = (List.range n).map g := by
        apply List.map_congr_left
        intro j hj
        rw [List.mem_range] at hj
        exact hother j (by omega)
      rw [hpre]
      simp only [List.map_cons, List.map_nil, List.flatten_cons, List.flatten_nil,
        List.append_nil]
      rw [← hn, heq]
      exact List.perm_middle
    · have hi0n : i0 < n := by omega
      have hlast : f n = g n := hother n (by omega)
      simp only [List.map_cons, List.map_nil, List.flatten_cons, List.flatten_nil,
        List.append_nil]
      rw [hlast]
      have hperm := ih hi0n heq hother
      have := hperm.append_right (g n)
      rw [List.cons_append] at this
      exact this

theorem joinRems_step {st st2 : MergeState} {i0 : Nat} {a : Row}
    (hlen : st2.sources.length = st.sources.length)
    (hi0 : i0 < st.sources.length)
    (heq : rem st i0 = a :: rem st2 i0)
    (hother : ∀ j, j ≠ i0 → rem st j = rem st2 j) :
    (joinRems st).Perm (a :: joinRems st2) := by
  unfold joinRems
  rw [hlen]
  exact join_map_range_perm hi0 heq hother

theorem ExecRes.bind_ok {α β : Type} (a : α) (f : α → ExecRes β) :
    (ExecRes.ok a >>= f) = f a := rfl

theorem ExecRes.bind_err {α β : Type} (f : α → ExecRes β) :
    ((ExecRes.err : ExecRes α) >>= f) = .err := rfl

theorem ExecRes.bind_panic {α β : Type} (f : α → ExecRes β) :
    ((ExecRes.panic : ExecRes α) >>= f) = .panic := rfl

theorem ExecRes.pure_eq_ok {α : Type} (a : α) :
    (pure a : ExecRes α) = .ok a := rfl

theorem goodStream_nil : goodStream [] := by
  intro ev hev
  simp at hev

theorem get_source_chunk_of_nil {st : MergeState} {i : Nat}
    (hlt : i < st.source_inputs.length)
    (hsrc : st.sources.getD i [] = []) :
    get_source_chunk st i = .ok { st with
      source_inputs := st.source_inputs.set i none,
      sources := st.sources.set i [] } := by
  unfold get_source_chunk
  rw [if_pos hlt, hsrc]
  rfl

theorem get_source_chunk_of_chunk {st : MergeState} {i : Nat} {c : DataChunk}
    {rest : List SrcEvent}
    (hlt : i < st.source_inputs.length)
    (hsrc : st.sources.getD i [] = SrcEvent.chunk c :: rest)
    (hcard : 0 < c.cardinality) :
    get_source_chunk st i = .ok { st with
      source_inputs := st.source_inputs.set i (some c),
      sources := st.sources.set i rest } := by
  unfold get_source_chunk
  rw [if_pos hlt, hsrc]
  show (if c.cardinality = 0 then ExecRes.panic else _) = _
  rw [if_neg (by omega)]

theorem get_source_chunk_of_fail {st : MergeState} {i : Nat}
    {rest : List SrcEvent}
    (hlt : i < st.source_inputs.length)
    (hsrc : st.sources.getD i [] = SrcEvent.fail :: rest) :
    get_source_chunk st i = .err := by
  unfold get_source_chunk
  rw [if_pos hlt, hsrc]
  rfl

theorem push_row_into_heap_of_some {st : MergeState} {i r : Nat} {c : DataChunk}
    (hlt : i < st.source_inputs.length)
    (hslot : st.source_inputs.getD i none = some c) :
    push_row_into_heap st i r = .ok { st with
      min_heap := { chunk := c, chunk_idx := i, elem_idx := r } :: st.min_heap } := by
  unfold push_row_into_heap
  rw [if_pos hlt, hslot]

theorem seed_from_slot_of_none {st : MergeState} {i : Nat}
    (hslot : st.source_inputs.getD i none = none) :
    seed_from_slot st i = .ok st := by
  unfold seed_from_slot
  rw [hslot]

theorem seed_from_slot_of_some {st : MergeState} {i : Nat} {c : DataChunk}
    (hlt : i < st.source_inputs.length)
    (hslot : st.source_inputs.getD i none = some c)
    (hcard : 0 < c.cardinality) :
    ∃ r, c.next_visible_row_idx 0 = some r ∧
      visAt c r = true ∧ r < c.rows.length ∧
      chunkVisFrom c 0 = chunkVisFrom c r ∧
      seed_from_slot st i = .ok { st with
        min_heap := { chunk := c, chunk_idx := i, elem_idx := r } :: st.min_heap } := by
  obtain ⟨r, hr⟩ := next_visible_zero_of_card hcard
  obtain ⟨_, hrlen, hrvis, hrview⟩ := next_visible_some_spec hr
  refine ⟨r, hr, hrvis, hrlen, hrview, ?_⟩
  unfold seed_from_slot
  rw [hslot]
  show (match c.next_visible_row_idx 0 with
    | some r => push_row_into_heap st i r
    | none => ExecRes.panic) = _
  rw [hr]
  show push_row_into_heap st i r = _
  rw [push_row_into_heap_of_some hlt hslot]

theorem rem_eq_of_elem {st : MergeState} {i : Nat} {e : HeapElem}
    (h : heapElemFor st.min_heap i = some e) :
    rem st i = chunkVisFrom e.chunk e.elem_idx ++ streamVis (st.sources.getD i []) := by
  unfold rem
  rw [h]

theorem rem_eq_of_none {st : MergeState} {i : Nat}
    (h : heapElemFor st.min_heap i = none) : rem st i = [] := by
  unfold rem
  rw [h]

/-- One advance step of the production loop, taken from the state whose
heap no longer holds the popped cursor top: it succeeds, restores the
structural invariant, and replaces what source top.chunk_idx still owes by
the rows after the emitted one, leaving every other source untouched. -/
theorem advance_spec {st : MergeState} {top : HeapElem}
    (len_eq : st.source_inputs.length = st.sources.length)
    (htop_lt : top.chunk_idx < st.sources.length)
    (htop_slot : st.source_inputs.getD top.chunk_idx none = some top.chunk)
    (hheap : ∀ e ∈ st.min_heap,
      e.chunk_idx < st.sources.length ∧
      st.source_inputs.getD e.chunk_idx none = some e.chunk ∧
      e.elem_idx < e.chunk.rows.length ∧
      visAt e.chunk e.elem_idx = true)
    (hnotin : ∀ e ∈ st.min_heap, e.chunk_idx ≠ top.chunk_idx)
    (hdistinct : st.min_heap.Pairwise (fun a b => a.chunk_idx ≠ b.chunk_idx))
    (hdrained : ∀ i < st.sources.length, i ≠ top.chunk_idx →
      (∀ e ∈ st.min_heap, e.chunk_idx ≠ i) → st.sources.getD i [] = [])
    (hgood : ∀ i, goodStream (st.sources.getD i [])) :
    ∃ st2, advance st top = .ok st2 ∧ InvCore st2 ∧
      st2.sources.length = st.sources.length ∧
      st2.first_execution = st.first_execution ∧
      rem st2 top.chunk_idx =
        chunkVisFrom top.chunk (top.elem_idx + 1) ++
          streamVis (st.sources.getD top.chunk_idx []) ∧
      (∀ j, j ≠ top.chunk_idx → rem st2 j = rem st j) := by
  have hlt' : top.chunk_idx < st.source_inputs.length := by
    rw [len_eq]; exact htop_lt
  rcases hnv : top.chunk.next_visible_row_idx (top.elem_idx + 1) with _ | nr
  · -- the buffered chunk is exhausted: fetch a fresh one
    have hvempty : chunkVisFrom top.chunk (top.elem_idx + 1) = [] :=
      (next_visible_none_iff _ _).mp hnv
    rcases hsrc : st.sources.getD top.chunk_idx [] with _ | ⟨ev, rest'⟩
    · -- the source stream is exhausted too: the slot empties
      have hget := get_source_chunk_of_nil hlt' hsrc
      have hnone : heapElemFor st.min_heap top.chunk_idx = none :=
        (heapElemFor_none_iff _ _).mpr hnotin
      refine ⟨{ st with
          source_inputs := st.source_inputs.set top.chunk_idx none,
          sources := st.sources.set top.chunk_idx [] }, ?_, ?_, ?_, ?_, ?_, ?_⟩
      · have hslot1 : (st.source_inputs.set top.chunk_idx none).getD
            top.chunk_idx none = none := getD_set_eq _ _ _ _ hlt'
        simp only [advance, hnv, hget, ExecRes.bind_ok]
        exact seed_from_slot_of_none hslot1
      · constructor
        · simp [List.length_set, len_eq]
        · intro e he
          obtain ⟨h1, h2, h3, h4⟩ := hheap e he
          exact ⟨by simpa [List.length_set] using h1,
            by rw [getD_set_ne _ _ _ (Ne.symm (hnotin e he))]; exact h2, h3, h4⟩
        · exact hdistinct
        · intro i hi hno
          rw [List.length_set] at hi
          by_cases hii : i = top.chunk_idx
          · subst hii
            exact getD_set_eq _ _ _ _ htop_lt
          · rw [getD_set_ne _ _ _ (fun hc => hii hc.symm)]
            exact hdrained i hi hii hno
        · intro j
          by_cases hjj : j = top.chunk_idx
          · subst hjj
            rw [getD_set_eq _ _ _ _ htop_lt]
            exact goodStream_nil
          · rw [getD_set_ne _ _ _ (fun hc => hjj hc.symm)]
            exact hgood j
      · simp [List.length_set]
      · rfl
      · have h1 : rem { st with
            source_inputs := st.source_inputs.set top.chunk_idx none,
            sources := st.sources.set top.chunk_idx [] } top.chunk_idx = [] :=
          rem_eq_of_none hnone
        rw [h1, hvempty]
        simp [streamVis]
      · intro j hj
        have hne : top.chunk_idx ≠ j := fun hc => hj hc.symm
        have hsrcj : ({ st with
            source_inputs := st.source_inputs.set top.chunk_idx none,
            sources := st.sources.set top.chunk_idx [] } :
            MergeState).sources.getD j [] = st.sources.getD j [] :=
          getD_set_ne _ _ _ hne
        rcases hf : heapElemFor st.min_heap j with _ | e
        · rw [@rem_eq_of_none ({ st with
              source_inputs := st.source_inputs.set top.chunk_idx none,
              sources := st.sources.set top.chunk_idx [] }) _ hf,
            rem_eq_of_none hf]
        · rw [@rem_eq_of_elem ({ st with
              source_inputs := st.source_inputs.set top.chunk_idx none,
              sources := st.sources.set top.chunk_idx [] }) _ _ hf,
            rem_eq_of_elem hf, hsrcj]
    · -- there is a next event; the contract rules out failures
      cases ev with
      | fail =>
        have := hgood top.chunk_idx
        rw [hsrc] at this
        have h2 := this SrcEvent.fail (List.mem_cons_self _ _)
        simp [goodEvent] at h2
      | chunk c =>
        have hcard : 0 < c.cardinality := by
          have := hgood top.chunk_idx
          rw [hsrc] at this
          have := this _ (List.mem_cons_self _ _)
          simpa [goodEvent] using this
        have hget := get_source_chunk_of_chunk hlt' hsrc hcard
        have hlen1 : (st.source_inputs.set top.chunk_idx (some c)).length
            = st.source_inputs.length := List.length_set _ _ _
        have hslot1 : (st.source_inputs.set top.chunk_idx (some c)).getD
            top.chunk_idx none = some c := getD_set_eq _ _ _ _ hlt'
        obtain ⟨r, hr, hrvis, hrlen, hrview, hseed⟩ :=
          @seed_from_slot_of_some ({ st with
            source_inputs := st.source_inputs.set top.chunk_idx (some c),
            sources := st.sources.set top.chunk_idx rest' }) _ _
            (by simpa [hlen1] using hlt') hslot1 hcard
        refine ⟨{ st with
            source_inputs := st.source_inputs.set top.chunk_idx (some c),
            min_heap := { chunk := c, chunk_idx := top.chunk_idx, elem_idx := r }
              :: st.min_heap,
            sources := st.sources.set top.chunk_idx rest' }, ?_, ?_, ?_, ?_, ?_, ?_⟩
        · simp only [advance, hnv, hget, ExecRes.bind_ok]
          exact hseed
        · constructor
          · simp [List.length_set, len_eq]
          · intro e he
            rw [List.mem_cons] at he
            rcases he with rfl | he
            · exact ⟨by simpa [List.length_set] using htop_lt, hslot1, hrlen, hrvis⟩
            · obtain ⟨h1, h2, h3, h4⟩ := hheap e he
              exact ⟨by simpa [List.length_set] using h1,
                by rw [getD_set_ne _ _ _ (Ne.symm (hnotin e he))]; exact h2, h3, h4⟩
          · rw [List.pairwise_cons]
            exact ⟨fun e he => Ne.symm (hnotin e he), hdistinct⟩
          · intro i hi hno
            rw [List.length_set] at hi
            by_cases hii : i = top.chunk_idx
            · subst hii
              exact absurd rfl
                (hno { chunk := c, chunk_idx := top.chunk_idx, elem_idx := r } (by simp))
            · rw [getD_set_ne _ _ _ (fun hc => hii hc.symm)]
              refine hdrained i hi hii (fun e he => hno e ?_)
              simp [he]
          · intro j
            by_cases hjj : j = top.chunk_idx
            · subst hjj
              rw [getD_set_eq _ _ _ _ htop_lt]
              intro ev hev
              have := hgood top.chunk_idx
              rw [hsrc] at this
              exact this ev (List.mem_cons_of_mem _ hev)
            · rw [getD_set_ne _ _ _ (fun hc => hjj hc.symm)]
              exact hgood j
        · simp [List.length_set]
        · rfl
        · have h1 : rem { st with
              source_inputs := st.source_inputs.set top.chunk_idx (some c),
              min_heap := { chunk := c, chunk_idx := top.chunk_idx, elem_idx := r }
                :: st.min_heap,
              sources := st.sources.set top.chunk_idx rest' } top.chunk_idx =
              chunkVisFrom c r ++
                streamVis ((st.sources.set top.chunk_idx rest').getD top.chunk_idx []) :=
            rem_eq_of_elem (heapElemFor_cons_eq _ rfl)
          rw [h1, show (st.sources.set top.chunk_idx rest').getD top.chunk_idx [] = rest'
            from getD_set_eq _ _ _ _ htop_lt, hvempty, ← hrview]
          simp [streamVis]
        · intro j hj
          have hne : top.chunk_idx ≠ j := fun hc => hj hc.symm
          have hf2 : heapElemFor
              ({ chunk := c, chunk_idx := top.chunk_idx, elem_idx := r } :: st.min_heap) j
              = heapElemFor st.min_heap j := heapElemFor_cons_ne _ hne
          have hsrcj : (st.sources.set top.chunk_idx rest').getD j []
              = st.sources.getD j [] := getD_set_ne _ _ _ hne
          rcases hf : heapElemFor st.min_heap j with _ | e
          · rw [@rem_eq_of_none ({ st with
                source_inputs := st.source_inputs.set top.chunk_idx (some c),
                min_heap := { chunk := c, chunk_idx := top.chunk_idx, elem_idx := r }
                  :: st.min_heap,
                sources := st.sources.set top.chunk_idx rest' }) _ (hf2.trans hf),
              rem_eq_of_none hf]
          · rw [@rem_eq_of_elem ({ st with
                source_inputs := st.source_inputs.set top.chunk_idx (some c),
                min_heap := { chunk := c, chunk_idx := top.chunk_idx, elem_idx := r }
                  :: st.min_heap,
                sources := st.sources.set top.chunk_idx rest' }) _ _ (hf2.trans hf),
              rem_eq_of_elem hf]
            rw [show ({ st with
                source_inputs := st.source_inputs.set top.chunk_idx (some c),
                min_heap := { chunk := c, chunk_idx := top.chunk_idx, elem_idx := r }
                  :: st.min_heap,
                sources := st.sources.set top.chunk_idx rest' } :
                MergeState).sources.getD j [] = st.sources.getD j [] from hsrcj]
  · -- same chunk still has a visible row: push it
    obtain ⟨hle, hltlen, hvis, hview⟩ := next_visible_some_spec hnv
    refine ⟨{ st with min_heap :=
        { chunk := top.chunk, chunk_idx := top.chunk_idx, elem_idx := nr }
          :: st.min_heap }, ?_, ?_, ?_, ?_, ?_, ?_⟩
    · simp only [advance, hnv]
      exact push_row_into_heap_of_some hlt' htop_slot
    · constructor
      · exact len_eq
      · intro e he
        rw [List.mem_cons] at he
        rcases he with rfl | he
        · exact ⟨htop_lt, htop_slot, hltlen, hvis⟩
        · exact hheap e he
      · rw [List.pairwise_cons]
        exact ⟨fun e he => Ne.symm (hnotin e he), hdistinct⟩
      · intro i hi hno
        by_cases hii : i = top.chunk_idx
        · subst hii
          exact absurd rfl
            (hno { chunk := top.chunk, chunk_idx := top.chunk_idx, elem_idx := nr }
              (by simp))
        · refine hdrained i hi hii (fun e he => hno e ?_)
          simp [he]
      · exact hgood
    · rfl
    · rfl
    · have h1 : rem { st with min_heap :=
          { chunk := top.chunk, chunk_idx := top.chunk_idx, elem_idx := nr }
            :: st.min_heap } top.chunk_idx =
          chunkVisFrom top.chunk nr ++ streamVis (st.sources.getD top.chunk_idx []) :=
        rem_eq_of_elem (heapElemFor_cons_eq _ rfl)
      rw [h1, hview]
    · intro j hj
      have hne : top.chunk_idx ≠ j := fun hc => hj hc.symm
      have hf2 : heapElemFor
          ({ chunk := top.chunk, chunk_idx := top.chunk_idx, elem_idx := nr }
            :: st.min_heap) j
          = heapElemFor st.min_heap j := heapElemFor_cons_ne _ hne
      rcases hf : heapElemFor st.min_heap j with _ | e
      · rw [@rem_eq_of_none ({ st with min_heap :=
            { chunk := top.chunk, chunk_idx := top.chunk_idx, elem_idx := nr }
              :: st.min_heap }) _ (hf2.trans hf),
          rem_eq_of_none hf]
      · rw [@rem_eq_of_elem ({ st with min_heap :=
            { chunk := top.chunk, chunk_idx := top.chunk_idx, elem_idx := nr }
              :: st.min_heap }) _ _ (hf2.trans hf),
          rem_eq_of_elem hf]

/-- The popped minimum is at most every row the merge still has to emit:
each source's pending rows are headed by its heap cursor's row, the popped
cursor is minimal among cursors, and each pending list is sorted. -/
theorem pop_dominates {ord : List OrderPair} {st : MergeState}
    {top : HeapElem} {rest : List HeapElem}
    (hInv : InvCore st) (hsorted : remSorted ord st)
    (hp : popMin ord st.min_heap = some (top, rest)) :
    ∀ x ∈ joinRems st, rowLe ord (elemRow top) x := by
  intro x hx
  rw [mem_joinRems] at hx
  obtain ⟨i, hi, hxi⟩ := hx
  rcases hf : heapElemFor st.min_heap i with _ | e
  · rw [rem_eq_of_none hf] at hxi
    simp at hxi
  · obtain ⟨hmem, hidx⟩ := (heapElemFor_some_iff hInv.distinct).mp hf
    obtain ⟨h1, h2, h3, h4⟩ := hInv.helem e hmem
    have hrem : rem st i =
        elemRow e :: (chunkVisFrom e.chunk (e.elem_idx + 1) ++
          streamVis (st.sources.getD i [])) := by
      rw [rem_eq_of_elem hf, visAt_chunkVisFrom h3 h4, List.cons_append]
      rfl
    have hle_head : rowLe ord (elemRow top) (elemRow e) := popMin_min hp e hmem
    rw [hrem] at hxi
    rcases List.mem_cons.mp hxi with rfl | hxtail
    · exact hle_head
    · have hs := hsorted i
      rw [hrem, List.sorted_cons] at hs
      exact rowLe_trans hle_head (hs.1 x hxtail)

/-- The production loop of next() under the structural invariant: it
succeeds, preserves the invariant, emits at most want rows and exactly
want unless the heap drained, moves exactly the emitted rows out of the
pending rows, and (for sorted inputs) emits a sorted prefix dominating
everything still pending. -/
theorem produce_spec (ord : List OrderPair) :
    ∀ (w : Nat) (st : MergeState), InvCore st →
    ∃ st' rows, produce ord st w = .ok (st', rows) ∧ InvCore st' ∧
      st'.sources.length = st.sources.length ∧
      st'.first_execution = st.first_execution ∧
      rows.length ≤ w ∧
      (st'.min_heap ≠ [] → rows.length = w) ∧
      (st.min_heap ≠ [] → 0 < w → rows ≠ []) ∧
      (rows ++ joinRems st').Perm (joinRems st) ∧
      (remSorted ord st → remSorted ord st' ∧ rows.Sorted (rowLe ord) ∧
        (∀ r ∈ rows, ∀ x ∈ joinRems st', rowLe ord r x)) := by
  intro w
  induction w with
  | zero =>
    intro st hInv
    refine ⟨st, [], rfl, hInv, rfl, rfl, by simp, by simp, ?_, by simp, ?_⟩
    · intro _ hw
      exact absurd hw (by simp)
    · intro hs
      exact ⟨hs, List.sorted_nil, by simp⟩
  | succ w ih =>
    intro st hInv
    rcases hp : popMin ord st.min_heap with _ | ⟨top, rest⟩
    · have hempty : st.min_heap = [] := (popMin_none_iff _ _).mp hp
      refine ⟨st, [], ?_, hInv, rfl, rfl, by simp, ?_, ?_, by simp, ?_⟩
      · unfold produce
        rw [hp]
      · intro hne
        exact absurd hempty hne
      · intro hne
        exact absurd hempty hne
      · intro hs
        exact ⟨hs, List.sorted_nil, by simp⟩
    · have hperm := popMin_perm hp
      have htopmem : top ∈ st.min_heap := hperm.subset (List.mem_cons_self _ _)
      have hrest_sub : ∀ e ∈ rest, e ∈ st.min_heap := fun e he =>
        hperm.subset (List.mem_cons_of_mem _ he)
      have hsymm : Symmetric (fun a b : HeapElem => a.chunk_idx ≠ b.chunk_idx) :=
        fun a b h => h.symm
      have hpair : (top :: rest).Pairwise (fun a b => a.chunk_idx ≠ b.chunk_idx) :=
        (hperm.pairwise_iff (fun {a b} h => Ne.symm h)).mpr hInv.distinct
      rw [List.pairwise_cons] at hpair
      have hnotin : ∀ e ∈ rest, e.chunk_idx ≠ top.chunk_idx := fun e he =>
        Ne.symm (hpair.1 e he)
      obtain ⟨htl, htslot, htlen, htvis⟩ := hInv.helem top htopmem
      obtain ⟨st2, hadv, hInv2, hlen2, hfirst2, hrem_i0, hrem_j⟩ :=
        @advance_spec ({ st with min_heap := rest }) top
          hInv.len_eq htl htslot
          (fun e he => hInv.helem e (hrest_sub e he))
          hnotin hpair.2
          (fun i hi hii hno => hInv.drained i hi (fun e he => by
            rcases List.mem_cons.mp (hperm.mem_iff.mpr he) with rfl | hr
            · exact fun hc => hii hc.symm
            · exact hno e hr))
          hInv.good
      obtain ⟨st', rows', hprod2, hInv', hlen', hfirst', hle', hfull', hne',
        hcons', hsorted'⟩ := ih st2 hInv2
      have hf0 : heapElemFor st.min_heap top.chunk_idx = some top :=
        (heapElemFor_some_iff hInv.distinct).mpr ⟨htopmem, rfl⟩
      have hstep : rem st top.chunk_idx = elemRow top :: rem st2 top.chunk_idx := by
        rw [rem_eq_of_elem hf0, visAt_chunkVisFrom htlen htvis, List.cons_append,
          hrem_i0]
        rfl
      have hrem_stP : ∀ j, j ≠ top.chunk_idx →
          rem { st with min_heap := rest } j = rem st j := by
        intro j hj
        rcases hf : heapElemFor st.min_heap j with _ | e
        · have hf' : heapElemFor rest j = none := by
            rw [heapElemFor_none_iff] at hf ⊢
            intro e he
            exact hf e (hrest_sub e he)
          rw [@rem_eq_of_none ({ st with min_heap := rest }) _ hf',
            rem_eq_of_none hf]
        · obtain ⟨hmem, hidx⟩ := (heapElemFor_some_iff hInv.distinct).mp hf
          have hf' : heapElemFor rest j = some e := by
            rw [heapElemFor_some_iff hpair.2]
            refine ⟨?_, hidx⟩
            rcases List.mem_cons.mp (hperm.mem_iff.mpr hmem) with rfl | hr
            · exact absurd hidx.symm hj
            · exact hr
          rw [@rem_eq_of_elem ({ st with min_heap := rest }) _ _ hf',
            rem_eq_of_elem hf]
      have hother : ∀ j, j ≠ top.chunk_idx → rem st j = rem st2 j := fun j hj =>
        ((hrem_j j hj).trans (hrem_stP j hj)).symm
      have hjstep : (joinRems st).Perm (elemRow top :: joinRems st2) :=
        joinRems_step (by exact hlen2) htl hstep hother
      have hprod : produce ord st (w + 1) = .ok (st', elemRow top :: rows') := by
        simp only [produce, hp, hadv, ExecRes.bind_ok, hprod2]
      refine ⟨st', elemRow top :: rows', hprod, hInv', by exact hlen'.trans hlen2,
        by exact hfirst'.trans hfirst2, ?_, ?_, ?_, ?_, ?_⟩
      · simpa using Nat.succ_le_succ hle'
      · intro hne
        simp [hfull' hne]
      · intro _ _
        simp
      · rw [List.cons_append]
        exact (hcons'.cons (elemRow top)).trans hjstep.symm
      · intro hsortedSt
        have hdom : ∀ x ∈ joinRems st, rowLe ord (elemRow top) x :=
          pop_dominates hInv hsortedSt hp
        have hsorted2 : remSorted ord st2 := by
          intro i
          by_cases hii : i = top.chunk_idx
          · subst hii
            have := hsortedSt top.chunk_idx
            rw [hstep, List.sorted_cons] at this
            exact this.2
          · rw [← hother i hii]
            exact hsortedSt i
        obtain ⟨hsorted'', hrows'_sorted, hdom'⟩ := hsorted' hsorted2
        have hmem2 : ∀ x ∈ joinRems st2, x ∈ joinRems st := fun x hx =>
          hjstep.mem_iff.mpr (List.mem_cons_of_mem _ hx)
        have hrows'_mem : ∀ b ∈ rows', b ∈ joinRems st2 := fun b hb =>
          hcons'.subset (List.mem_append_left _ hb)
        refine ⟨hsorted'', ?_, ?_⟩
        · rw [List.sorted_cons]
          exact ⟨fun b hb => hdom b (hmem2 b (hrows'_mem b hb)), hrows'_sorted⟩
        · intro r hr x hx
          rcases List.mem_cons.mp hr with rfl | hr'
          · exact hdom x (hmem2 x (hcons'.subset (List.mem_append_right _ hx)))
          · exact hdom' r hr' x hx

/-- The first_execution loop from index i on: processing the remaining
sources succeeds, establishes the structural invariant, seeds each
remaining source's pending rows with its whole stream, and leaves the
already-processed sources untouched. -/
theorem initAux_spec :
    ∀ (fuel : Nat) (st : MergeState) (i : Nat),
    i + fuel = st.sources.length →
    st.source_inputs.length = st.sources.length →
    (∀ e ∈ st.min_heap,
      e.chunk_idx < i ∧
      st.source_inputs.getD e.chunk_idx none = some e.chunk ∧
      e.elem_idx < e.chunk.rows.length ∧
      visAt e.chunk e.elem_idx = true) →
    st.min_heap.Pairwise (fun a b => a.chunk_idx ≠ b.chunk_idx) →
    (∀ j < i, (∀ e ∈ st.min_heap, e.chunk_idx ≠ j) → st.sources.getD j [] = []) →
    (∀ j, goodStream (st.sources.getD j [])) →
    ∃ st', initAux st i fuel = .ok st' ∧ InvCore st' ∧
      st'.sources.length = st.sources.length ∧
      st'.first_execution = st.first_execution ∧
      (∀ j < i, rem st' j = rem st j) ∧
      (∀ j, i ≤ j → rem st' j = streamVis (st.sources.getD j [])) := by
  intro fuel
  induction fuel with
  | zero =>
    intro st i hfuel len_eq hhelem hdist hdrained hgood
    have hin : i = st.sources.length := by omega
    refine ⟨st, rfl, ?_, rfl, rfl, fun j _ => rfl, ?_⟩
    · exact ⟨len_eq,
        fun e he => ⟨by have := (hhelem e he).1; omega, (hhelem e he).2⟩,
        hdist,
        fun j hj hno => hdrained j (by omega) hno,
        hgood⟩
    · intro j hj
      have hnone : heapElemFor st.min_heap j = none := by
        rw [heapElemFor_none_iff]
        intro e he
        have := (hhelem e he).1
        omega
      have hdef : st.sources.getD j [] = [] :=
        List.getD_eq_default _ _ (by omega)
      rw [rem_eq_of_none hnone, hdef]
      rfl
  | succ fuel ih =>
    intro st i hfuel len_eq hhelem hdist hdrained hgood
    have hi : i < st.sources.length := by omega
    have hi' : i < st.source_inputs.length := by omega
    rcases hsrc : st.sources.getD i [] with _ | ⟨ev, rest'⟩
    · -- the source answers end-of-stream immediately
      have hget := get_source_chunk_of_nil hi' hsrc
      have hslot1 : (st.source_inputs.set i none).getD i none = none :=
        getD_set_eq _ _ _ _ hi'
      have hinit : init_source st i = .ok { st with
          source_inputs := st.source_inputs.set i none,
          sources := st.sources.set i [] } := by
        simp only [init_source, hget, ExecRes.bind_ok]
        exact seed_from_slot_of_none hslot1
      obtain ⟨st', hrun, hInv', hlen', hfirst', hremlt, hremge⟩ :=
        ih { st with
            source_inputs := st.source_inputs.set i none,
            sources := st.sources.set i [] } (i + 1)
          (by simp [List.length_set]; omega)
          (by simp [List.length_set, len_eq])
          (fun e he => by
            obtain ⟨h1, h2, h3, h4⟩ := hhelem e he
            exact ⟨by omega, by rw [getD_set_ne _ _ _ (by omega)]; exact h2, h3, h4⟩)
          hdist
          (fun j hj hno => by
            by_cases hji : j = i
            · subst hji
              exact getD_set_eq _ _ _ _ hi
            · rw [getD_set_ne _ _ _ (fun hc => hji hc.symm)]
              exact hdrained j (by omega) hno)
          (fun j => by
            by_cases hji : j = i
            · subst hji
              rw [getD_set_eq _ _ _ _ hi]
              exact goodStream_nil
            · rw [getD_set_ne _ _ _ (fun hc => hji hc.symm)]
              exact hgood j)
      have hrem1 : ∀ j, j ≠ i → rem { st with
          source_inputs := st.source_inputs.set i none,
          sources := st.sources.set i [] } j = rem st j := by
        intro j hj
        have hsrcj : ({ st with
            source_inputs := st.source_inputs.set i none,
            sources := st.sources.set i [] } :
            MergeState).sources.getD j [] = st.sources.getD j [] :=
          getD_set_ne _ _ _ (fun hc => hj hc.symm)
        rcases hf : heapElemFor st.min_heap j with _ | e
        · rw [@rem_eq_of_none ({ st with
              source_inputs := st.source_inputs.set i none,
              sources := st.sources.set i [] }) _ hf, rem_eq_of_none hf]
        · rw [@rem_eq_of_elem ({ st with
              source_inputs := st.source_inputs.set i none,
              sources := st.sources.set i [] }) _ _ hf, rem_eq_of_elem hf, hsrcj]
      have hremi : rem { st with
          source_inputs := st.source_inputs.set i none,
          sources := st.sources.set i [] } i = [] := by
        have hnone : heapElemFor st.min_heap i = none := by
          rw [heapElemFor_none_iff]
          intro e he
          have := (hhelem e he).1
          omega
        exact rem_eq_of_none hnone
      refine ⟨st', ?_, hInv', by simpa [List.length_set] using hlen',
        hfirst', ?_, ?_⟩
      · simp only [initAux, hinit, ExecRes.bind_ok]
        exact hrun
      · intro j hj
        rw [hremlt j (by omega)]
        exact hrem1 j (by omega)
      · intro j hj
        by_cases hji : j = i
        · subst hji
          rw [hremlt j (by omega), hremi, hsrc]
          rfl
        · rw [hremge j (by omega)]
          rw [show ({ st with
              source_inputs := st.source_inputs.set i none,
              sources := st.sources.set i [] } :
              MergeState).sources.getD j [] = st.sources.getD j [] from
            getD_set_ne _ _ _ (fun hc => hji hc.symm)]
    · cases ev with
      | fail =>
        have := hgood i
        rw [hsrc] at this
        have h2 := this SrcEvent.fail (List.mem_cons_self _ _)
        simp [goodEvent] at h2
      | chunk c =>
        have hcard : 0 < c.cardinality := by
          have := hgood i
          rw [hsrc] at this
          have := this _ (List.mem_cons_self _ _)
          simpa [goodEvent] using this
        have hget := get_source_chunk_of_chunk hi' hsrc hcard
        have hslot1 : (st.source_inputs.set i (some c)).getD i none = some c :=
          getD_set_eq _ _ _ _ hi'
        obtain ⟨r, hr, hrvis, hrlen, hrview, hseed⟩ :=
          @seed_from_slot_of_some ({ st with
            source_inputs := st.source_inputs.set i (some c),
            sources := st.sources.set i rest' }) _ _
            (by simpa [List.length_set] using hi') hslot1 hcard
        have hinit : init_source st i = .ok { st with
            source_inputs := st.source_inputs.set i (some c),
            min_heap := { chunk := c, chunk_idx := i, elem_idx := r } :: st.min_heap,
            sources := st.sources.set i rest' } := by
          simp only [init_source, hget, ExecRes.bind_ok]
          exact hseed
        obtain ⟨st', hrun, hInv', hlen', hfirst', hremlt, hremge⟩ :=
          ih { st with
              source_inputs := st.source_inputs.set i (some c),
              min_heap := { chunk := c, chunk_idx := i, elem_idx := r } :: st.min_heap,
              sources := st.sources.set i rest' } (i + 1)
            (by simp [List.length_set]; omega)
            (by simp [List.length_set, len_eq])
            (fun e he => by
              rcases List.mem_cons.mp he with rfl | he'
              · exact ⟨Nat.lt_succ_self i, hslot1, hrlen, hrvis⟩
              · obtain ⟨h1, h2, h3, h4⟩ := hhelem e he'
                exact ⟨by omega, by rw [getD_set_ne _ _ _ (by omega)]; exact h2,
                  h3, h4⟩)
            (by
              rw [List.pairwise_cons]
              exact ⟨fun e he => by
                have h := (hhelem e he).1
                show i ≠ e.chunk_idx
                omega, hdist⟩)
            (fun j hj hno => by
              by_cases hji : j = i
              · subst hji
                exact absurd rfl
                  (hno { chunk := c, chunk_idx := j, elem_idx := r } (by simp))
              · rw [getD_set_ne _ _ _ (fun hc => hji hc.symm)]
                refine hdrained j (by omega) (fun e he => hno e ?_)
                simp [he])
            (fun j => by
              by_cases hji : j = i
              · subst hji
                rw [getD_set_eq _ _ _ _ hi]
                intro ev hev
                have := hgood j
                rw [hsrc] at this
                exact this ev (List.mem_cons_of_mem _ hev)
              · rw [getD_set_ne _ _ _ (fun hc => hji hc.symm)]
                exact hgood j)
        have hrem1 : ∀ j, j ≠ i → rem { st with
            source_inputs := st.source_inputs.set i (some c),
            min_heap := { chunk := c, chunk_idx := i, elem_idx := r } :: st.min_heap,
            sources := st.sources.set i rest' } j = rem st j := by
          intro j hj
          have hf2 : heapElemFor
              ({ chunk := c, chunk_idx := i, elem_idx := r } :: st.min_heap) j
              = heapElemFor st.min_heap j :=
            heapElemFor_cons_ne _ (fun hc => hj hc.symm)
          have hsrcj : ({ st with
              source_inputs := st.source_inputs.set i (some c),
              min_heap := { chunk := c, chunk_idx := i, elem_idx := r } :: st.min_heap,
              sources := st.sources.set i rest' } :
              MergeState).sources.getD j [] = st.sources.getD j [] :=
            getD_set_ne _ _ _ (fun hc => hj hc.symm)
          rcases hf : heapElemFor st.min_heap j with _ | e
          · rw [@rem_eq_of_none ({ st with
                source_inputs := st.source_inputs.set i (some c),
                min_heap := { chunk := c, chunk_idx := i, elem_idx := r } :: st.min_heap,
                sources := st.sources.set i rest' }) _ (hf2.trans hf),
              rem_eq_of_none hf]
          · rw [@rem_eq_of_elem ({ st with
                source_inputs := st.source_inputs.set i (some c),
                min_heap := { chunk := c, chunk_idx := i, elem_idx := r } :: st.min_heap,
                sources := st.sources.set i rest' }) _ _ (hf2.trans hf),
              rem_eq_of_elem hf, hsrcj]
        have hremi : rem { st with
            source_inputs := st.source_inputs.set i (some c),
            min_heap := { chunk := c, chunk_idx := i, elem_idx := r } :: st.min_heap,
            sources := st.sources.set i rest' } i =
            streamVis (SrcEvent.chunk c :: rest') := by
          rw [rem_eq_of_elem (heapElemFor_cons_eq _ rfl)]
          rw [show ({ st with
              source_inputs := st.source_inputs.set i (some c),
              min_heap := { chunk := c, chunk_idx := i, elem_idx := r } :: st.min_heap,
              sources := st.sources.set i rest' } :
              MergeState).sources.getD i [] = rest' from getD_set_eq _ _ _ _ hi]
          rw [← hrview]
          rfl
        refine ⟨st', ?_, hInv', by simpa [List.length_set] using hlen',
          hfirst', ?_, ?_⟩
        · simp only [initAux, hinit, ExecRes.bind_ok]
          exact hrun
        · intro j hj
          rw [hremlt j (by omega)]
          exact hrem1 j (by omega)
        · intro j hj
          by_cases hji : j = i
          · subst hji
            rw [hremlt j (by omega), hremi, hsrc]
          · rw [hremge j (by omega)]
            rw [show ({ st with
                source_inputs := st.source_inputs.set i (some c),
                min_heap := { chunk := c, chunk_idx := i, elem_idx := r } :: st.min_heap,
                sources := st.sources.set i rest' } :
                MergeState).sources.getD j [] = st.sources.getD j [] from
              getD_set_ne _ _ _ (fun hc => hji hc.symm)]

/-- The whole first_execution block on the constructor state: it succeeds,
establishes the invariant and seeds every source's pending rows with its
full stream. -/
theorem initAll_spec (streams : List (List SrcEvent))
    (hgood : ∀ s ∈ streams, goodStream s) :
    ∃ st', initAll (mkInitialState streams) = .ok st' ∧ InvCore st' ∧
      st'.sources.length = streams.length ∧
      (∀ j, rem st' j = streamVis (streams.getD j [])) := by
  have hgood' : ∀ j, goodStream ((mkInitialState streams).sources.getD j []) := by
    intro j
    by_cases hj : j < streams.length
    · have : (mkInitialState streams).sources.getD j [] = streams[j] := by
        unfold mkInitialState
        exact List.getD_eq_getElem _ _ hj
      rw [this]
      exact hgood _ (List.getElem_mem hj)
    · rw [show (mkInitialState streams).sources.getD j [] = [] from
        List.getD_eq_default _ _ (by unfold mkInitialState; simpa using hj)]
      exact goodStream_nil
  obtain ⟨st', hrun, hInv', hlen', _, _, hremge⟩ :=
    initAux_spec streams.length (mkInitialState streams) 0
      (by unfold mkInitialState; simp)
      (by unfold mkInitialState; simp)
      (by unfold mkInitialState; simp)
      (by unfold mkInitialState; simp)
      (by simp)
      hgood'
  refine ⟨st', hrun, hInv', by simpa [mkInitialState] using hlen', ?_⟩
  intro j
  exact hremge j (Nat.zero_le j)

theorem map_range_getD {α β : Type _} (f : α → β) (d : α) :
    ∀ (l : List α),
      (List.range l.length).map (fun i => f (l.getD i d)) = l.map f := by
  intro l
  induction l with
  | nil => simp
  | cons x xs ih =>
    rw [show (x :: xs).length = xs.length + 1 from rfl, List.range_succ_eq_map]
    simp only [List.map_cons, List.map_map]
    refine congrArg (f x :: ·) ?_
    rw [← ih]
    apply List.map_congr_left
    intro a _
    rfl

theorem joinRems_after_init {st' : MergeState} {streams : List (List SrcEvent)}
    (hlen : st'.sources.length = streams.length)
    (hrem : ∀ j, rem st' j = streamVis (streams.getD j [])) :
    joinRems st' = (streams.map streamVis).flatten := by
  unfold joinRems
  rw [hlen]
  rw [show (List.range streams.length).map (fun i => rem st' i)
      = (List.range streams.length).map (fun i => streamVis (streams.getD i [])) from
    List.map_congr_left (fun i _ => hrem i)]
  rw [map_range_getD streamVis [] streams]

/-- Successive next() calls from an initialized state: they succeed, keep
the invariant, emit exactly the rows that leave the pending rows, report
end-of-stream only once everything has been emitted, and (for sorted
inputs) emit a sorted sequence dominating everything still pending. -/
theorem run_spec (ord : List OrderPair) (window : Nat) :
    ∀ (k : Nat) (st : MergeState), InvCore st → st.first_execution = false →
    ∃ st' chunks ended, run ord window st k = .ok (st', chunks, ended) ∧
      InvCore st' ∧ st'.first_execution = false ∧
      st'.sources.length = st.sources.length ∧
      (chunks.flatten ++ joinRems st').Perm (joinRems st) ∧
      (ended = true → joinRems st' = []) ∧
      (remSorted ord st → remSorted ord st' ∧
        chunks.flatten.Sorted (rowLe ord) ∧
        (∀ r ∈ chunks.flatten, ∀ x ∈ joinRems st', rowLe ord r x)) := by
  intro k
  induction k with
  | zero =>
    intro st hInv hfirst
    refine ⟨st, [], false, rfl, hInv, hfirst, rfl, by simp, by simp, ?_⟩
    intro hs
    exact ⟨hs, List.sorted_nil, by simp⟩
  | succ k ih =>
    intro st hInv hfirst
    by_cases hemp : st.min_heap = []
    · have hnext : nextChunk ord window st = .ok (st, none) := by
        unfold nextChunk
        rw [hfirst]
        simp only [Bool.false_eq_true, if_false, ExecRes.pure_eq_ok,
          ExecRes.bind_ok, hemp, List.isEmpty_nil, if_true]
      have hrun : run ord window st (k + 1) = .ok (st, [], true) := by
        simp only [run, hnext, ExecRes.bind_ok]
      refine ⟨st, [], true, hrun, hInv, hfirst, rfl, by simp, ?_, ?_⟩
      · intro _
        exact joinRems_of_heap_nil hemp
      · intro hs
        exact ⟨hs, List.sorted_nil, by simp⟩
    · obtain ⟨st2, rows, hprod, hInv2, hlen2, hfirst2, _, _, _, hcons2, hsort2⟩ :=
        produce_spec ord window st hInv
      have hnext : nextChunk ord window st = .ok (st2, some rows) := by
        unfold nextChunk
        rw [hfirst]
        simp only [Bool.false_eq_true, if_false, ExecRes.pure_eq_ok,
          ExecRes.bind_ok]
        rw [if_neg (by simpa [List.isEmpty_iff] using hemp)]
        simp only [hprod, ExecRes.bind_ok]
      obtain ⟨st', chunks', ended, hrunk, hInv', hfirst', hlen', hcons',
        hend', hsort'⟩ := ih st2 hInv2 (hfirst2.trans hfirst)
      have hrun : run ord window st (k + 1) = .ok (st', rows :: chunks', ended) := by
        simp only [run, hnext, ExecRes.bind_ok, hrunk]
      refine ⟨st', rows :: chunks', ended, hrun, hInv', hfirst',
        hlen'.trans hlen2, ?_, hend', ?_⟩
      · rw [List.flatten_cons, List.append_assoc]
        exact ((hcons'.append_left rows).trans hcons2)
      · intro hsortedSt
        obtain ⟨hsorted2, hrows_sorted, hdom2⟩ := hsort2 hsortedSt
        obtain ⟨hsorted', hchunks_sorted, hdom'⟩ := hsort' hsorted2
        have hmem' : ∀ x ∈ chunks'.flatten, x ∈ joinRems st2 := fun x hx =>
          hcons'.subset (List.mem_append_left _ hx)
        refine ⟨hsorted', ?_, ?_⟩
        · rw [List.flatten_cons]
          refine List.pairwise_append.mpr ⟨hrows_sorted, hchunks_sorted, ?_⟩
          intro a ha b hb
          exact hdom2 a ha b (hmem' b hb)
        · intro r hr x hx
          rw [List.flatten_cons, List.mem_append] at hr
          rcases hr with hr | hr
          · exact hdom2 r hr x (hcons'.subset (List.mem_append_right _ hx))
          · exact hdom' r hr x hx

/-- The first call of next() after construction performs initialization
and then behaves like a call on the initialized state with
first_execution cleared. -/
theorem run_first_eq (ord : List OrderPair) (window : Nat) (k : Nat)
    {st stI : MergeState}
    (hfirst : st.first_execution = true)
    (hinit : initAll st = .ok stI) :
    run ord window st (k + 1) =
      run ord window { stI with first_execution := false } (k + 1) := by
  have hnc : nextChunk ord window st =
      nextChunk ord window { stI with first_execution := false } := by
    unfold nextChunk
    rw [hfirst, hinit]
    rfl
  unfold run
  rw [hnc]

/-- Any number of next() calls on the constructor state: every call
succeeds, the concatenated output is sorted when the sources are, and at
end-of-stream the output is a permutation of everything the sources
emitted. -/
theorem run_init_spec (ord : List OrderPair) (window : Nat)
    (streams : List (List SrcEvent))
    (hgood : ∀ s ∈ streams, goodStream s) (k : Nat) :
    ∃ st' chunks ended,
      run ord window (mkInitialState streams) k = .ok (st', chunks, ended) ∧
      (ended = true →
        chunks.flatten.Perm ((streams.map streamVis).flatten)) ∧
      ((∀ s ∈ streams, (streamVis s).Sorted (rowLe ord)) →
        chunks.flatten.Sorted (rowLe ord)) := by
  cases k with
  | zero => exact ⟨mkInitialState streams, [], false, rfl, by simp, by simp⟩
  | succ k =>
    obtain ⟨stI, hinitAll, hInvI, hlenI, hremI⟩ := initAll_spec streams hgood
    have hbridge := run_first_eq ord window k
      (show (mkInitialState streams).first_execution = true from rfl) hinitAll
    have hInvI' : InvCore { stI with first_execution := false } := by
      obtain ⟨a, b, c, d, e⟩ := hInvI
      exact ⟨a, b, c, d, e⟩
    have hremI' : ∀ j, rem { stI with first_execution := false } j =
        streamVis (streams.getD j []) := fun j => hremI j
    have hjoin : joinRems { stI with first_execution := false } =
        (streams.map streamVis).flatten :=
      joinRems_after_init (by exact hlenI) hremI'
    obtain ⟨st', chunks, ended, hrun, _, _, _, hcons, hend, hsort⟩ :=
      run_spec ord window (k + 1) { stI with first_execution := false }
        hInvI' rfl
    refine ⟨st', chunks, ended, hbridge.trans hrun, ?_, ?_⟩
    · intro hended
      have := hcons
      rw [hend hended, List.append_nil, hjoin] at this
      exact this
    · intro hsorted
      have hremSorted : remSorted ord { stI with first_execution := false } := by
        intro i
        rw [hremI' i]
        by_cases hi : i < streams.length
        · rw [List.getD_eq_getElem _ _ hi]
          exact hsorted _ (List.getElem_mem hi)
        · rw [List.getD_eq_default _ _ (by omega)]
          exact List.sorted_nil
      exact (hsort hremSorted).2.1

theorem get_source_chunk_first {st : MergeState} {i : Nat} {st1 : MergeState}
    (h : get_source_chunk st i = .ok st1) :
    st1.first_execution = st.first_execution := by
  unfold get_source_chunk at h
  split at h
  · split at h
    · split at h
      · exact absurd h (by simp)
      · injection h with h
        subst h
        rfl
    · injection h with h
      subst h
      rfl
    · exact absurd h (by simp)
    · exact absurd h (by simp)
  · exact absurd h (by simp)

theorem push_row_into_heap_first {st : MergeState} {i r : Nat} {st1 : MergeState}
    (h : push_row_into_heap st i r = .ok st1) :
    st1.first_execution = st.first_execution := by
  unfold push_row_into_heap at h
  split at h
  · split at h
    · injection h with h
      subst h
      rfl
    · exact absurd h (by simp)
  · exact absurd h (by simp)

theorem seed_from_slot_first {st : MergeState} {i : Nat} {st1 : MergeState}
    (h : seed_from_slot st i = .ok st1) :
    st1.first_execution = st.first_execution := by
  unfold seed_from_slot at h
  split at h
  · split at h
    · exact push_row_into_heap_first h
    · exact absurd h (by simp)
  · injection h with h
    subst h
    rfl

theorem advance_first {st : MergeState} {top : HeapElem} {st1 : MergeState}
    (h : advance st top = .ok st1) :
    st1.first_execution = st.first_execution := by
  unfold advance at h
  split at h
  · exact push_row_into_heap_first h
  · rcases hg : get_source_chunk st top.chunk_idx with st2 | _ | _ <;> rw [hg] at h
    · rw [ExecRes.bind_ok] at h
      exact (seed_from_slot_first h).trans (get_source_chunk_first hg)
    · exact absurd h (by simp [ExecRes.bind_err])
    · exact absurd h (by simp [ExecRes.bind_panic])

/-- Structural facts about the production loop needed for the window law,
conditional only on a successful run. -/
theorem produce_len (ord : List OrderPair) :
    ∀ (w : Nat) (st st' : MergeState) (rows : List Row),
      produce ord st w = .ok (st', rows) →
      rows.length ≤ w ∧ (st'.min_heap ≠ [] → rows.length = w) ∧
      (st.min_heap ≠ [] → 0 < w → rows ≠ []) ∧
      st'.first_execution = st.first_execution := by
  intro w
  induction w with
  | zero =>
    intro st st' rows h
    have h' : ExecRes.ok (α := MergeState × List Row) (st, []) = .ok (st', rows) := h
    injection h' with h'
    have h1 : st = st' := congrArg Prod.fst h'
    have h2 : ([] : List Row) = rows := congrArg Prod.snd h'
    subst h1
    rw [← h2]
    exact ⟨by simp, by simp, fun _ hw => absurd hw (by simp), rfl⟩
  | succ w ih =>
    intro st st' rows h
    rcases hp : popMin ord st.min_heap with _ | ⟨top, rest⟩
    · have hempty : st.min_heap = [] := (popMin_none_iff _ _).mp hp
      unfold produce at h
      rw [hp] at h
      have h' : ExecRes.ok (α := MergeState × List Row) (st, []) = .ok (st', rows) := h
      injection h' with h'
      have h1 : st = st' := congrArg Prod.fst h'
      have h2 : ([] : List Row) = rows := congrArg Prod.snd h'
      subst h1
      rw [← h2]
      exact ⟨by simp, fun hne => absurd hempty hne,
        fun hne => absurd hempty hne, rfl⟩
    · rcases ha : advance { st with min_heap := rest } top with st1 | _ | _ <;>
        simp only [produce, hp, ha, ExecRes.bind_ok, ExecRes.bind_err,
          ExecRes.bind_panic, reduceCtorEq] at h
      rcases hq : produce ord st1 w with ⟨st2, rows'⟩ | _ | _ <;> rw [hq] at h
      · rw [ExecRes.bind_ok] at h
        have h' : ExecRes.ok (α := MergeState × List Row)
            (st2, elemRow top :: rows') = .ok (st', rows) := h
        injection h' with h'
        have h1 : st2 = st' := congrArg Prod.fst h'
        have h2 : elemRow top :: rows' = rows := congrArg Prod.snd h'
        subst h1
        rw [← h2]
        obtain ⟨hle, hfull, _, hfirst⟩ := ih st1 st2 rows' hq
        refine ⟨by simpa using Nat.succ_le_succ hle, ?_, by simp, ?_⟩
        · intro hne
          simp [hfull hne]
        · have h3 := advance_first ha
          exact hfirst.trans h3
      · exact absurd h (by simp [ExecRes.bind_err])
      · exact absurd h (by simp [ExecRes.bind_panic])

/-- A successful next() call always leaves first_execution cleared, and a
Some answer comes from a production-loop run on a state with a non-empty
heap. -/
theorem nextChunk_some_elim {ord : List OrderPair} {window : Nat}
    {st st1 : MergeState} {rows : List Row}
    (h : nextChunk ord window st = .ok (st1, some rows)) :
    ∃ stm : MergeState, stm.min_heap ≠ [] ∧ stm.first_execution = false ∧
      produce ord stm window = .ok (st1, rows) ∧
      (st.first_execution = false → stm = st) := by
  unfold nextChunk at h
  split at h
  · rename_i hfirst
    rcases hi : initAll st with st0 | _ | _ <;>
      simp only [hi, ExecRes.bind_ok, ExecRes.bind_err, ExecRes.bind_panic,
        ExecRes.pure_eq_ok, reduceCtorEq] at h
    split at h
    · exact absurd h (by simp)
    · rename_i hne
      rcases hq : produce ord { st0 with first_execution := false } window
        with ⟨st2, rows'⟩ | _ | _ <;> rw [hq] at h
      · rw [ExecRes.bind_ok] at h
        have h' : ExecRes.ok (α := MergeState × Option (List Row))
            (st2, some rows') = .ok (st1, some rows) := h
        injection h' with h'
        have h1 : st2 = st1 := congrArg Prod.fst h'
        have h2 : some rows' = (st1, some rows).2 := congrArg Prod.snd h'
        simp only at h2
        injection h2 with h2
        subst h1
        subst h2
        refine ⟨{ st0 with first_execution := false },
          by simpa [List.isEmpty_iff] using hne, rfl, hq, ?_⟩
        intro hf
        rw [hfirst] at hf
        exact absurd hf (by simp)
      · exact absurd h (by simp [ExecRes.bind_err])
      · exact absurd h (by simp [ExecRes.bind_panic])
  · rename_i hfirst
    simp only [ExecRes.pure_eq_ok, ExecRes.bind_ok] at h
    split at h
    · exact absurd h (by simp)
    · rename_i hne
      rcases hq : produce ord st window with ⟨st2, rows'⟩ | _ | _ <;> rw [hq] at h
      · rw [ExecRes.bind_ok] at h
        have h' : ExecRes.ok (α := MergeState × Option (List Row))
            (st2, some rows') = .ok (st1, some rows) := h
        injection h' with h'
        have h1 : st2 = st1 := congrArg Prod.fst h'
        have h2 : some rows' = (st1, some rows).2 := congrArg Prod.snd h'
        simp only at h2
        injection h2 with h2
        subst h1
        subst h2
        exact ⟨st, by simpa [List.isEmpty_iff] using hne,
          by simpa using hfirst, hq, fun _ => rfl⟩
      · exact absurd h (by simp [ExecRes.bind_err])
      · exact absurd h (by simp [ExecRes.bind_panic])

/-- A None answer of next() leaves a drained state: empty heap and
first_execution cleared. -/
theorem nextChunk_none_elim {ord : List OrderPair} {window : Nat}
    {st st1 : MergeState}
    (h : nextChunk ord window st = .ok (st1, none)) :
    st1.min_heap = [] ∧ st1.first_execution = false := by
  unfold nextChunk at h
  split at h
  · rename_i hfirst
    rcases hi : initAll st with st0 | _ | _ <;>
      simp only [hi, ExecRes.bind_ok, ExecRes.bind_err, ExecRes.bind_panic,
        ExecRes.pure_eq_ok, reduceCtorEq] at h
    split at h
    · rename_i hemp
      have h' : ExecRes.ok (α := MergeState × Option (List Row))
          ({ st0 with first_execution := false }, none) = .ok (st1, none) := h
      injection h' with h'
      have h1 : { st0 with first_execution := false } = st1 :=
        congrArg Prod.fst h'
      rw [← h1]
      exact ⟨by simpa [List.isEmpty_iff] using hemp, rfl⟩
    · rcases hq : produce ord { st0 with first_execution := false } window
        with ⟨st2, rows'⟩ | _ | _ <;> rw [hq] at h
      · rw [ExecRes.bind_ok] at h
        have h' : ExecRes.ok (α := MergeState × Option (List Row))
            (st2, some rows') = .ok (st1, none) := h
        injection h' with h'
        have h2 : some rows' = (st1, (none : Option (List Row))).2 :=
          congrArg Prod.snd h'
        exact absurd h2 (by simp)
      · exact absurd h (by simp [ExecRes.bind_err])
      · exact absurd h (by simp [ExecRes.bind_panic])
  · rename_i hfirst
    simp only [ExecRes.pure_eq_ok, ExecRes.bind_ok] at h
    split at h
    · rename_i hemp
      have h' : ExecRes.ok (α := MergeState × Option (List Row))
          (st, none) = .ok (st1, none) := h
      injection h' with h'
      have h1 : st = st1 := congrArg Prod.fst h'
      rw [← h1]
      exact ⟨by simpa [List.isEmpty_iff] using hemp, by simpa using hfirst⟩
    · rcases hq : produce ord st window with ⟨st2, rows'⟩ | _ | _ <;> rw [hq] at h
      · rw [ExecRes.bind_ok] at h
        have h' : ExecRes.ok (α := MergeState × Option (List Row))
            (st2, some rows') = .ok (st1, none) := h
        injection h' with h'
        have h2 : some rows' = (st1, (none : Option (List Row))).2 :=
          congrArg Prod.snd h'
        exact absurd h2 (by simp)
      · exact absurd h (by simp [ExecRes.bind_err])
      · exact absurd h (by simp [ExecRes.bind_panic])

/-- On a drained state, next() answers None and does not change the
state. -/
theorem nextChunk_drained {ord : List OrderPair} {window : Nat}
    {st : MergeState} (hemp : st.min_heap = [])
    (hfirst : st.first_execution = false) :
    nextChunk ord window st = .ok (st, none) := by
  unfold nextChunk
  rw [hfirst]
  simp only [Bool.false_eq_true, if_false, ExecRes.pure_eq_ok, ExecRes.bind_ok,
    hemp, List.isEmpty_nil, if_true]

/-- Case analysis of one successful next() call inside a run. -/
theorem run_succ_elim {ord : List OrderPair} {window : Nat}
    {st : MergeState} {k : Nat} {st' : MergeState} {chunks : List (List Row)}
    {ended : Bool}
    (h : run ord window st (k + 1) = .ok (st', chunks, ended)) :
    (∃ st1, nextChunk ord window st = .ok (st1, none) ∧
      st' = st1 ∧ chunks = [] ∧ ended = true) ∨
    (∃ st1 rows chunks', nextChunk ord window st = .ok (st1, some rows) ∧
      run ord window st1 k = .ok (st', chunks', ended) ∧
      chunks = rows :: chunks') := by
  rcases hn : nextChunk ord window st with ⟨st1, res⟩ | _ | _ <;>
    simp only [run, hn, ExecRes.bind_ok, ExecRes.bind_err, ExecRes.bind_panic,
      reduceCtorEq] at h
  rcases res with _ | rows
  · left
    have h' : ExecRes.ok (α := MergeState × List (List Row) × Bool)
        (st1, [], true) = .ok (st', chunks, ended) := h
    injection h' with h'
    have h1 : st1 = st' := congrArg Prod.fst h'
    have h2 : (([], true) : List (List Row) × Bool) = (chunks, ended) :=
      congrArg Prod.snd h'
    have h3 : ([] : List (List Row)) = chunks := congrArg Prod.fst h2
    have h4 : true = ended := congrArg Prod.snd h2
    exact ⟨st1, rfl, h1.symm, h3.symm, h4.symm⟩
  · right
    rcases hr : run ord window st1 k with ⟨st2, chunks2, ended2⟩ | _ | _
    · have h' : ExecRes.ok (α := MergeState × List (List Row) × Bool)
          (st2, rows :: chunks2, ended2) = .ok (st', chunks, ended) := by
        rw [← h, hr]
        rfl
      injection h' with h'
      have h1 : st2 = st' := congrArg Prod.fst h'
      have h2 : ((rows :: chunks2, ended2) : List (List Row) × Bool)
          = (chunks, ended) := congrArg Prod.snd h'
      have h3 : rows :: chunks2 = chunks := congrArg Prod.fst h2
      have h4 : ended2 = ended := congrArg Prod.snd h2
      subst h1
      subst h4
      exact ⟨st1, rows, chunks2, rfl, hr, h3.symm⟩
    · rw [hr] at h
      exact absurd h (by simp [ExecRes.bind_err])
    · rw [hr] at h
      exact absurd h (by simp [ExecRes.bind_panic])

/-- The window law over any successful run: every chunk is at most window
rows and non-empty, and every chunk followed by another one is exactly
window rows. -/
theorem run_window_law (ord : List OrderPair) {window : Nat} (hw : 0 < window) :
    ∀ (k : Nat) (st st' : MergeState) (chunks : List (List Row)) (ended : Bool),
      run ord window st k = .ok (st', chunks, ended) →
      (∀ c ∈ chunks, c.length ≤ window ∧ c ≠ []) ∧
      (∀ i, i + 1 < chunks.length → (chunks.getD i []).length = window) := by
  intro k
  induction k with
  | zero =>
    intro st st' chunks ended h
    have h' : ExecRes.ok (α := MergeState × List (List Row) × Bool)
        (st, [], false) = .ok (st', chunks, ended) := h
    injection h' with h'
    have h2 : (([], false) : List (List Row) × Bool) = (chunks, ended) :=
      congrArg Prod.snd h'
    have h3 : ([] : List (List Row)) = chunks := congrArg Prod.fst h2
    rw [← h3]
    exact ⟨by simp, by simp⟩
  | succ k ih =>
    intro st st' chunks ended h
    rcases run_succ_elim h with ⟨st1, hn, _, hceq, _⟩ |
      ⟨st1, rows, chunks', hn, hrun, hceq⟩
    · rw [hceq]
      exact ⟨by simp, by simp⟩
    · subst hceq
      obtain ⟨stm, hne0, hfirstm, hprod, _⟩ := nextChunk_some_elim hn
      obtain ⟨hle, hfull, hnempty, hfirstkeep⟩ :=
        produce_len ord window stm st1 rows hprod
      obtain ⟨ihall, ihfull⟩ := ih st1 st' chunks' ended hrun
      have hfirst1 : st1.first_execution = false := hfirstkeep.trans hfirstm
      constructor
      · intro c hc
        rcases List.mem_cons.mp hc with rfl | hc
        · exact ⟨hle, hnempty hne0 hw⟩
        · exact ihall c hc
      · intro i hi
        cases i with
        | zero =>
          rcases hch : chunks' with _ | ⟨c2, chunks''⟩
          · rw [hch] at hi
            simp at hi
          · subst hch
            cases k with
            | zero =>
              have h' : ExecRes.ok (α := MergeState × List (List Row) × Bool)
                  (st1, [], false) = .ok (st', c2 :: chunks'', ended) := hrun
              injection h' with h'
              have h2 : (([], false) : List (List Row) × Bool)
                  = (c2 :: chunks'', ended) := congrArg Prod.snd h'
              have h3 : ([] : List (List Row)) = c2 :: chunks'' :=
                congrArg Prod.fst h2
              exact absurd h3 (by simp)
            | succ k' =>
              rcases run_succ_elim hrun with ⟨st2', hn2, _, hceq2, _⟩ |
                ⟨st2', rows2, chunks2, hn2, _, _⟩
              · exact absurd hceq2 (by simp)
              · obtain ⟨stm2, hne2, _, _, hstm2⟩ := nextChunk_some_elim hn2
                have hkey : st1.min_heap ≠ [] := by
                  rw [← hstm2 hfirst1]
                  exact hne2
                have : rows.length = window := hfull hkey
                simpa using this
        | succ i =>
          have := ihfull i (by simpa using hi)
          simpa using this

/-- One event of a source as seen by the first_execution loop before the
error position: either end-of-stream or a well-formed chunk, so that the
loop passes this source without failing. -/
def initStepOk : List SrcEvent → Prop
  | [] => True
  | .chunk c :: _ => 0 < c.cardinality
  | .fail :: _ => False

instance : ∀ s, Decidable (initStepOk s)
  | [] => by unfold initStepOk; infer_instance
  | .chunk _ :: _ => by unfold initStepOk; infer_instance
  | .fail :: _ => by unfold initStepOk; infer_instance

/-- If every source before position i passes the first_execution loop and
source i answers a fetch error, initialization propagates the error. -/
theorem initAux_err :
    ∀ (fuel j : Nat) (st : MergeState) (i : Nat),
    j ≤ i → i < j + fuel →
    st.source_inputs.length = st.sources.length →
    i < st.sources.length →
    (∀ m, j ≤ m → m < i → initStepOk (st.sources.getD m [])) →
    (st.sources.getD i []).head? = some SrcEvent.fail →
    initAux st j fuel = .err := by
  intro fuel
  induction fuel with
  | zero =>
    intro j st i h1 h2
    omega
  | succ fuel ih =>
    intro j st i hji hlt len_eq hi hok hfail
    have hj' : j < st.source_inputs.length := by omega
    by_cases hjeq : j = i
    · subst hjeq
      rcases hs : st.sources.getD j [] with _ | ⟨ev, rest⟩
      · rw [hs] at hfail
        exact absurd hfail (by simp)
      · rw [hs] at hfail
        have hev : ev = SrcEvent.fail := by simpa using hfail
        subst hev
        have hget := get_source_chunk_of_fail hj' hs
        have hinit : init_source st j = .err := by
          simp only [init_source, hget, ExecRes.bind_err]
        simp only [initAux, hinit, ExecRes.bind_err]
    · have hjlt : j < i := by omega
      have hstep := hok j (Nat.le_refl j) hjlt
      rcases hs : st.sources.getD j [] with _ | ⟨ev, rest⟩
      · have hget := get_source_chunk_of_nil hj' hs
        have hslot1 : (st.source_inputs.set j none).getD j none = none :=
          getD_set_eq _ _ _ _ hj'
        have hinit : init_source st j = .ok { st with
            source_inputs := st.source_inputs.set j none,
            sources := st.sources.set j [] } := by
          simp only [init_source, hget, ExecRes.bind_ok]
          exact seed_from_slot_of_none hslot1
        have hrec := ih (j + 1) { st with
            source_inputs := st.source_inputs.set j none,
            sources := st.sources.set j [] } i
          (by omega) (by omega)
          (by simp [List.length_set, len_eq])
          (by simpa [List.length_set] using hi)
          (fun m hm1 hm2 => by
            rw [getD_set_ne _ _ _ (by omega)]
            exact hok m (by omega) hm2)
          (by rw [getD_set_ne _ _ _ (by omega)]; exact hfail)
        simp only [initAux, hinit, ExecRes.bind_ok]
        exact hrec
      · cases ev with
        | fail =>
          rw [hs] at hstep
          exact absurd hstep (by simp [initStepOk])
        | chunk c =>
          rw [hs] at hstep
          have hcard : 0 < c.cardinality := by simpa [initStepOk] using hstep
          have hget := get_source_chunk_of_chunk hj' hs hcard
          have hslot1 : (st.source_inputs.set j (some c)).getD j none = some c :=
            getD_set_eq _ _ _ _ hj'
          obtain ⟨r, hr, _, _, _, hseed⟩ :=
            @seed_from_slot_of_some ({ st with
              source_inputs := st.source_inputs.set j (some c),
              sources := st.sources.set j rest }) _ _
              (by simpa [List.length_set] using hj') hslot1 hcard
          have hinit : init_source st j = .ok { st with
              source_inputs := st.source_inputs.set j (some c),
              min_heap := { chunk := c, chunk_idx := j, elem_idx := r }
                :: st.min_heap,
              sources := st.sources.set j rest } := by
            simp only [init_source, hget, ExecRes.bind_ok]
            exact hseed
          have hrec := ih (j + 1) { st with
              source_inputs := st.source_inputs.set j (some c),
              min_heap := { chunk := c, chunk_idx := j, elem_idx := r }
                :: st.min_heap,
              sources := st.sources.set j rest } i
            (by omega) (by omega)
            (by simp [List.length_set, len_eq])
            (by simpa [List.length_set] using hi)
            (fun m hm1 hm2 => by
              rw [getD_set_ne _ _ _ (by omega)]
              exact hok m (by omega) hm2)
            (by rw [getD_set_ne _ _ _ (by omega)]; exact hfail)
          simp only [initAux, hinit, ExecRes.bind_ok]
          exact hrec

/-- Witness scenario: two sources, one chunk each, single ascending
column. -/
def wChunk1 : DataChunk := ⟨[([1], true), ([2], true)]⟩

/-- Witness scenario: the second source's chunk. -/
def wChunk2 : DataChunk := ⟨[([1], true), ([3], true)]⟩

/-- Witness scenario: the two source streams. -/
def wStreams : List (List SrcEvent) := [[.chunk wChunk1], [.chunk wChunk2]]

/-- Witness scenario: order by column 0 ascending. -/
def wOrd : List OrderPair := [⟨0, .Ascending⟩]

/-- Witness scenario: the drained state both witness runs end in. -/
def wFinal : MergeState :=
  { source_inputs := [none, none], min_heap := [], sources := [[], []],
    first_execution := false }

/-- C1: for every set of N exchange sources, each emitting a stream of
chunks whose visible rows are (per source) sorted under the OrderingSpec
and respecting the source contract, the concatenation of all chunks
returned by successive next() calls of MergeSortExchange is sorted under
the same OrderingSpec. -/
theorem merge_sort_exchange_global_order
    (ord : List OrderPair) (window : Nat) (streams : List (List SrcEvent))
    (k : Nat) (st' : MergeState) (chunks : List (List Row)) (ended : Bool)
    (hgood : ∀ s ∈ streams, goodStream s)
    (hsorted : ∀ s ∈ streams, (streamVis s).Sorted (rowLe ord))
    (hrun : run ord window (mkInitialState streams) k = .ok (st', chunks, ended)) :
    chunks.flatten.Sorted (rowLe ord) := by
  obtain ⟨st'', chunks'', ended'', hrun'', _, hsort''⟩ :=
    run_init_spec ord window streams hgood k
  have heq := hrun''.symm.trans hrun
  injection heq with heq
  have h3 : chunks'' = chunks := congrArg (fun p => p.2.1) heq
  rw [← h3]
  exact hsort'' hsorted

/-- Witness for C1 at the concrete two-source scenario. -/
theorem merge_sort_exchange_global_order_witness :
    (([[[1], [1], [2], [3]]] : List (List Row)).flatten).Sorted (rowLe wOrd) :=
  merge_sort_exchange_global_order wOrd 4 wStreams 2 wFinal
    [[[1], [1], [2], [3]]] true (by decide) (by decide) (by decide)

/-- C3: for every set of N sources respecting the source contract, once
the executor reports end-of-stream the multiset of rows emitted over all
next() calls equals the disjoint union of the multisets of visible rows
emitted by the N sources: no row is dropped and no row is duplicated
(rows hidden by the visibility bitmap are excluded). -/
theorem merge_sort_exchange_conservation
    (ord : List OrderPair) (window : Nat) (streams : List (List SrcEvent))
    (k : Nat) (st' : MergeState) (chunks : List (List Row))
    (hgood : ∀ s ∈ streams, goodStream s)
    (hrun : run ord window (mkInitialState streams) k = .ok (st', chunks, true)) :
    chunks.flatten.Perm ((streams.map streamVis).flatten) := by
  obtain ⟨st'', chunks'', ended'', hrun'', hperm'', _⟩ :=
    run_init_spec ord window streams hgood k
  have heq := hrun''.symm.trans hrun
  injection heq with heq
  have h3 : chunks'' = chunks := congrArg (fun p => p.2.1) heq
  have h4 : ended'' = true := congrArg (fun p => p.2.2) heq
  rw [← h3]
  exact hperm'' h4

/-- Witness for C3 at the concrete two-source scenario. -/
theorem merge_sort_exchange_conservation_witness :
    (([[[1], [1], [2], [3]]] : List (List Row)).flatten).Perm
      ((wStreams.map streamVis).flatten) :=
  merge_sort_exchange_conservation wOrd 4 wStreams 2 wFinal
    [[[1], [1], [2], [3]]] (by decide) (by decide)

/-- C4: every chunk returned by next() has cardinality at most the window
(K_PROCESSING_WINDOW_SIZE in the source, a construction-time constant),
every returned chunk followed by another one has cardinality exactly the
window, and no returned chunk is empty (next() returns none instead). -/
theorem merge_sort_exchange_window_law
    (ord : List OrderPair) (window : Nat) (streams : List (List SrcEvent))
    (k : Nat) (st' : MergeState) (chunks : List (List Row)) (ended : Bool)
    (hw : 0 < window)
    (hrun : run ord window (mkInitialState streams) k = .ok (st', chunks, ended)) :
    (∀ c ∈ chunks, c.length ≤ window ∧ c ≠ []) ∧
    (∀ i, i + 1 < chunks.length → (chunks.getD i []).length = window) :=
  run_window_law ord hw k _ st' chunks ended hrun

/-- Witness for C4: window 2 over the two-source scenario produces one
full chunk and a final partial chunk. -/
theorem merge_sort_exchange_window_law_witness :
    (∀ c ∈ ([[[1], [1]], [[2], [3]]] : List (List Row)), c.length ≤ 2 ∧ c ≠ []) ∧
    (∀ i, i + 1 < ([[[1], [1]], [[2], [3]]] : List (List Row)).length →
      (([[[1], [1]], [[2], [3]]] : List (List Row)).getD i []).length = 2) :=
  merge_sort_exchange_window_law wOrd 2 wStreams 3 wFinal
    [[[1], [1]], [[2], [3]]] true (by decide) (by decide)

/-- C6: once next() has returned none, every subsequent call also returns
none and never produces a chunk: the executor is exhausted after the
first none. -/
theorem merge_sort_exchange_exhaustion
    (ord : List OrderPair) (window : Nat) (st st' : MergeState)
    (h : nextChunk ord window st = .ok (st', none)) :
    ∀ k, 0 < k → run ord window st' k = .ok (st', [], true) := by
  obtain ⟨hemp, hfirst⟩ := nextChunk_none_elim h
  intro k hk
  cases k with
  | zero => exact absurd hk (by simp)
  | succ k =>
    simp only [run, nextChunk_drained hemp hfirst, ExecRes.bind_ok]

/-- Witness for C6: after the drained state answers none, two further
calls produce nothing. -/
theorem merge_sort_exchange_exhaustion_witness :
    run wOrd 4 wFinal 2 = .ok (wFinal, [], true) :=
  merge_sort_exchange_exhaustion wOrd 4 wFinal wFinal (by decide) 2 (by decide)

/-- C7: a take_data error from any source is propagated by next()
immediately as an error carrying no chunk, with no retry: during
initialization (first conjunct, the erroring source at any position i,
the sources before it passing) and during the production loop (second
conjunct, the popped cursor's chunk exhausted and its source answering an
error). -/
theorem merge_sort_exchange_error_propagation :
    (∀ (ord : List OrderPair) (window : Nat) (st : MergeState) (i : Nat),
      st.first_execution = true →
      st.source_inputs.length = st.sources.length →
      i < st.sources.length →
      (∀ m < i, initStepOk (st.sources.getD m [])) →
      (st.sources.getD i []).head? = some SrcEvent.fail →
      nextChunk ord window st = .err) ∧
    (∀ (ord : List OrderPair) (window : Nat) (st : MergeState)
      (top : HeapElem) (rest : List HeapElem),
      st.first_execution = false → 0 < window →
      popMin ord st.min_heap = some (top, rest) →
      top.chunk.next_visible_row_idx (top.elem_idx + 1) = none →
      top.chunk_idx < st.source_inputs.length →
      (st.sources.getD top.chunk_idx []).head? = some SrcEvent.fail →
      nextChunk ord window st = .err) := by
  constructor
  · intro ord window st i hfirst len_eq hi hok hfail
    have hinitAll : initAll st = .err :=
      initAux_err st.sources.length 0 st i (Nat.zero_le _) (by omega) len_eq hi
        (fun m _ hm => hok m hm) hfail
    unfold nextChunk
    rw [hfirst, hinitAll]
    rfl
  · intro ord window st top rest hfirst hw hpop hnv hlt hfail
    rcases hs : st.sources.getD top.chunk_idx [] with _ | ⟨ev, rest''⟩
    · rw [hs] at hfail
      exact absurd hfail (by simp)
    · rw [hs] at hfail
      have hev : ev = SrcEvent.fail := by simpa using hfail
      subst hev
      rcases window with _ | w
      · exact absurd hw (by simp)
      · have hadv : advance { st with min_heap := rest } top = .err := by
          simp only [advance, hnv]
          rw [get_source_chunk_of_fail
            (show top.chunk_idx <
              ({ st with min_heap := rest } : MergeState).source_inputs.length
              from hlt)
            (show ({ st with min_heap := rest } : MergeState).sources.getD
              top.chunk_idx [] = SrcEvent.fail :: rest'' from hs)]
          rfl
        have hprod : produce ord st (w + 1) = .err := by
          simp only [produce, hpop, hadv, ExecRes.bind_err]
        unfold nextChunk
        rw [hfirst]
        simp only [Bool.false_eq_true, if_false, ExecRes.pure_eq_ok,
          ExecRes.bind_ok]
        rw [if_neg (by
          simp only [List.isEmpty_iff]
          intro hc
          rw [hc] at hpop
          exact absurd hpop (by simp [popMin]))]
        simp only [hprod, ExecRes.bind_err]

/-- Witness scenario for the production-loop error case: the buffered
chunk is fully consumed and the source's next answer is a fetch error. -/
def wErrLoopState : MergeState :=
  { source_inputs := [some wChunk1],
    min_heap := [{ chunk := wChunk1, chunk_idx := 0, elem_idx := 1 }],
    sources := [[SrcEvent.fail]],
    first_execution := false }

/-- Witness for C7: a failing source at position 1 during initialization,
and a failing refetch during the production loop. -/
theorem merge_sort_exchange_error_propagation_witness :
    nextChunk wOrd 4 (mkInitialState [[.chunk wChunk1], [.fail]]) = .err ∧
    nextChunk wOrd 4 wErrLoopState = .err :=
  ⟨merge_sort_exchange_error_propagation.1 wOrd 4
      (mkInitialState [[.chunk wChunk1], [.fail]]) 1
      (by decide) (by decide) (by decide) (by decide) (by decide),
    merge_sort_exchange_error_propagation.2 wOrd 4 wErrLoopState
      { chunk := wChunk1, chunk_idx := 0, elem_idx := 1 } []
      (by decide) (by decide) (by decide) (by decide) (by decide) (by decide)⟩

/-- C8: under the source contract (every take_data answer is a chunk with
cardinality > 0 or end-of-stream), no assertion or unwrap of next() can
fail: a run never panics. -/
theorem merge_sort_exchange_no_panic
    (ord : List OrderPair) (window : Nat) (streams : List (List SrcEvent))
    (k : Nat) (hgood : ∀ s ∈ streams, goodStream s) :
    run ord window (mkInitialState streams) k ≠ .panic := by
  obtain ⟨st', chunks, ended, hrun, _, _⟩ :=
    run_init_spec ord window streams hgood k
  rw [hrun]
  simp

/-- Witness for C8 at the concrete two-source scenario. -/
theorem merge_sort_exchange_no_panic_witness :
    run wOrd 4 (mkInitialState wStreams) 2 ≠ .panic :=
  merge_sort_exchange_no_panic wOrd 4 wStreams 2 (by decide)

/-- Modelled from the spec: a remote source descriptor of the plan node
(address and task/output identifiers); new_boxed_executor never inspects
its contents, it only counts and stores them. -/
structure ProstExchangeSource where
  host : Nat
  port : Nat
  sink_id : Nat
deriving DecidableEq, Repr

/-- The decoded MergeSortExchangeNode: ordering columns (an entry is none
when malformed, making fetch_orders(...).unwrap() panic), the source
descriptors, and the declared input schema (an entry is none when its
data type does not decode, making type_build_from_prost(...).unwrap()
panic). -/
structure MergeSortExchangeNode where
  column_orders : List (Option OrderPair)
  sources : List ProstExchangeSource
  input_schema : List (Option Nat)
deriving DecidableEq, Repr

/-- The plan node kind, as far as new_boxed_executor checks it. -/
inductive PlanNodeType where
  | MergeSortExchange
  | OtherNode
deriving DecidableEq, Repr

/-- A plan node as new_boxed_executor consumes it: its type tag and its
body; body = none models a body that fails to decode (ProstError). -/
structure PlanNode where
  node_type : PlanNodeType
  body : Option MergeSortExchangeNode
deriving DecidableEq, Repr

/-- The executor record new_boxed_executor builds. -/
structure BuiltExecutor where
  order_pairs : List OrderPair
  proto_sources : List ProstExchangeSource
  source_inputs : List (Option DataChunk)
  min_heap : List HeapElem
  schema : List Nat
  first_execution : Bool
deriving DecidableEq, Repr

/-- Modelled from the spec: fetch_orders of sort_util, none when any
column order is malformed. -/
def fetch_orders : List (Option OrderPair) → Option (List OrderPair)
  | [] => some []
  | some p :: rest => (fetch_orders rest).map (p :: ·)
  | none :: _ => none

/-- Modelled from the spec: building the schema fields via
type_build_from_prost, none when any declared data type is invalid. -/
def build_fields : List (Option Nat) → Option (List Nat)
  | [] => some []
  | some t :: rest => (build_fields rest).map (t :: ·)
  | none :: _ => none

/-- Embeds MergeSortExchangeExecutorImpl::new_boxed_executor: check the
node type (ensure!), decode the body (ProstError), unwrap the fetched
orders (panic on malformed), reject an empty source list (ensure!),
unwrap each schema field's type (panic on invalid), then build the
executor with empty slots, an empty heap and first_execution set. -/
def new_boxed_executor (node : PlanNode) : ExecRes BuiltExecutor :=
  if node.node_type = PlanNodeType.MergeSortExchange then
    match node.body with
    | none => .err
    | some msn =>
      match fetch_orders msn.column_orders with
      | none => .panic
      | some order_pairs =>
        if msn.sources.isEmpty then .err
        else
          match build_fields msn.input_schema with
          | none => .panic
          | some fields =>
            .ok { order_pairs := order_pairs,
                  proto_sources := msn.sources,
                  source_inputs := msn.sources.map (fun _ => none),
                  min_heap := [],
                  schema := fields,
                  first_execution := true }
  else .err

/-- The schema the plan node declares (for stating the schema-mismatch
reading of the claim). -/
def declaredTypes (node : PlanNode) : List (Option Nat) :=
  match node.body with
  | some msn => msn.input_schema
  | none => []

/-- Witness plan node: well-formed, one source, one int column. -/
def wPlanNode : PlanNode :=
  { node_type := .MergeSortExchange,
    body := some
      { column_orders := [some { col := 0, order_type := .Ascending }],
        sources := [{ host := 0, port := 0, sink_id := 0 }],
        input_schema := [some 0] } }

/-- C9 counterexample: construction does not fail on a schema mismatch.
The builder's input carries no source schemas at all; pairing a
well-formed plan node with source schemas disagreeing with the declared
input schema still yields a successful construction, refuting the claim
that construction fails with a validation error on schema mismatch. -/
theorem new_boxed_executor_schema_mismatch_counterexample :
    ¬ (∀ (node : PlanNode) (srcSchemas : List (List (Option Nat))),
        (∃ s ∈ srcSchemas, s ≠ declaredTypes node) →
        new_boxed_executor node = .err) := by
  intro h
  have := h wPlanNode [[some 5]] ⟨[some 5], by decide, by decide⟩
  exact absurd this (by decide)

/-- C9 (amended): on a plan node of the right type whose body decodes and
whose column orders are valid, construction fails with an error when the
source list is empty, and succeeds when the source list is non-empty and
the declared schema's types are valid; no schema-mismatch validation
happens at construction. -/
theorem new_boxed_executor_spec :
    (∀ (node : PlanNode) (msn : MergeSortExchangeNode)
      (ops : List OrderPair),
      node.node_type = PlanNodeType.MergeSortExchange →
      node.body = some msn →
      fetch_orders msn.column_orders = some ops →
      msn.sources = [] →
      new_boxed_executor node = .err) ∧
    (∀ (node : PlanNode) (msn : MergeSortExchangeNode)
      (ops : List OrderPair) (fields : List Nat),
      node.node_type = PlanNodeType.MergeSortExchange →
      node.body = some msn →
      fetch_orders msn.column_orders = some ops →
      msn.sources ≠ [] →
      build_fields msn.input_schema = some fields →
      new_boxed_executor node =
        .ok { order_pairs := ops,
              proto_sources := msn.sources,
              source_inputs := msn.sources.map (fun _ => none),
              min_heap := [],
              schema := fields,
              first_execution := true }) := by
  constructor
  · intro node msn ops htype hbody horders hempty
    unfold new_boxed_executor
    rw [if_pos htype, hbody]
    show (match fetch_orders msn.column_orders with
      | none => ExecRes.panic
      | some _ =>
        if msn.sources.isEmpty then ExecRes.err
        else _) = ExecRes.err
    rw [horders]
    show (if msn.sources.isEmpty then ExecRes.err else _) = ExecRes.err
    rw [if_pos (by simp [hempty])]
  · intro node msn ops fields htype hbody horders hne hfields
    unfold new_boxed_executor
    rw [if_pos htype, hbody]
    show (match fetch_orders msn.column_orders with
      | none => ExecRes.panic
      | some order_pairs =>
        if msn.sources.isEmpty then ExecRes.err
        else _) = _
    rw [horders]
    show (if msn.sources.isEmpty then ExecRes.err else _) = _
    rw [if_neg (by simpa [List.isEmpty_iff] using hne)]
    show (match build_fields msn.input_schema with
      | none => ExecRes.panic
      | some fields => ExecRes.ok
        ({ order_pairs := ops,
           proto_sources := msn.sources,
           source_inputs := msn.sources.map (fun _ => none),
           min_heap := [],
           schema := fields,
           first_execution := true } : BuiltExecutor)) = _
    rw [hfields]

/-- Witness for C9: the empty-source rejection and a successful
construction at concrete plan nodes. -/
theorem new_boxed_executor_spec_witness :
    new_boxed_executor
      { node_type := .MergeSortExchange,
        body := some
          { column_orders := [some { col := 0, order_type := .Ascending }],
            sources := [],
            input_schema := [some 0] } } = .err ∧
    new_boxed_executor wPlanNode =
      .ok { order_pairs := [{ col := 0, order_type := .Ascending }],
            proto_sources := [{ host := 0, port := 0, sink_id := 0 }],
            source_inputs := [none],
            min_heap := [],
            schema := [0],
            first_execution := true } :=
  ⟨new_boxed_executor_spec.1
      { node_type := .MergeSortExchange,
        body := some
          { column_orders := [some { col := 0, order_type := .Ascending }],
            sources := [],
            input_schema := [some 0] } }
      { column_orders := [some { col := 0, order_type := .Ascending }],
        sources := [],
        input_schema := [some 0] }
      [{ col := 0, order_type := .Ascending }]
      (by decide) (by decide) (by decide) (by decide),
    new_boxed_executor_spec.2 wPlanNode
      { column_orders := [some { col := 0, order_type := .Ascending }],
        sources := [{ host := 0, port := 0, sink_id := 0 }],
        input_schema := [some 0] }
      [{ col := 0, order_type := .Ascending }] [0]
      (by decide) (by decide) (by decide) (by decide) (by decide)⟩

end MergeSort


namespace Hummock

/-- An SST block payload, an opaque byte blob; len() is its length. -/
abbrev Block := List Nat

/-- Modelled from the spec: one LRU shard entry: key, payload, the
caller-supplied byte charge and a pin refcount (> 0 means an outstanding
handle pins the entry against eviction). -/
structure Entry where
  key : Nat × Nat
  block : Block
  charge : Nat
  refs : Nat
deriving DecidableEq, Repr

/-- Modelled from the spec: one LRU shard, MRU-first entry list with a
byte budget for unpinned entries. -/
structure Shard where
  capacity : Nat
  entries : List Entry
deriving DecidableEq, Repr

/-- The summed charge of the unpinned resident entries of a shard. -/
def unpinnedCharge (l : List Entry) : Nat :=
  ((l.filter (fun e => e.refs = 0)).map (fun e => e.charge)).sum

/-- Modelled from the spec: remove the least-recently-used (last)
unpinned entry, or none when every entry is pinned. -/
def removeLastUnpinned : List Entry → Option (List Entry)
  | [] => none
  | e :: rest =>
    match removeLastUnpinned rest with
    | some rest' => some (e :: rest')
    | none => if e.refs = 0 then some rest else none

/-- Modelled from the spec: evict LRU victims until the unpinned charge
fits the budget; pinned entries cannot be victimized, so the loop also
stops when only pinned entries remain. -/
def evictLoop : Nat → Shard → Shard
  | 0, s => s
  | fuel + 1, s =>
    if unpinnedCharge s.entries ≤ s.capacity then s
    else
      match removeLastUnpinned s.entries with
      | some entries' => evictLoop fuel { s with entries := entries' }
      | none => s

/-- Modelled from the spec: shard insert: replace any previous entry of
the key, admit the new entry at the MRU end pinned by the returned
handle, then evict LRU victims until the budget holds. -/
def shardInsert (s : Shard) (k : Nat × Nat) (charge : Nat) (b : Block) : Shard :=
  evictLoop
    (({ key := k, block := b, charge := charge, refs := 1 } : Entry)
      :: s.entries.filter (fun e => e.key != k)).length
    { s with entries :=
      ({ key := k, block := b, charge := charge, refs := 1 } : Entry)
        :: s.entries.filter (fun e => e.key != k) }

/-- The uniform read-only view over a block (what a BlockHolder
dereferences to). -/
structure BlockHolder where
  block : Block
deriving DecidableEq, Repr

/-- Modelled from the spec: shard lookup: find the key, pin the entry,
promote it to the MRU end, and hand out a holder over its block. -/
def shardLookup (s : Shard) (k : Nat × Nat) : Option (BlockHolder × Shard) :=
  match s.entries.find? (fun e => e.key == k) with
  | some e => some (⟨e.block⟩,
      { s with entries :=
        ({ key := e.key, block := e.block, charge := e.charge,
           refs := e.refs + 1 } : Entry)
          :: s.entries.filter (fun x => x.key != k) })
  | none => none

/-- Modelled from the spec: the sharded LRU cache, shards selected by the
key hash. -/
structure LruCacheM where
  shards : List Shard
deriving DecidableEq, Repr

/-- CACHE_SHARD_BITS of block_cache.rs: 64 shards. -/
def CACHE_SHARD_BITS : Nat := 6

/-- DEFAULT_OBJECT_POOL_SIZE of block_cache.rs (an entry-struct pool
size; it does not affect the functional model). -/
def DEFAULT_OBJECT_POOL_SIZE : Nat := 1024

/-- Modelled from the spec: the shard a hash routes to. -/
def shardOf (lru : LruCacheM) (h : Nat) : Nat := h % lru.shards.length

/-- Modelled from the spec: LruCache::new; the spec fixes per-shard byte
budgets without fixing how the total capacity is split, so the model
gives each shard the full budget. -/
def LruCacheM.new (shard_bits capacity _object_pool : Nat) : LruCacheM :=
  { shards := List.replicate (2 ^ shard_bits)
      { capacity := capacity, entries := [] } }

/-- Modelled from the spec: LruCache::lookup: route to the shard of the
hash and look the key up there, returning the pinned handle. -/
def LruCacheM.lookup (lru : LruCacheM) (h : Nat) (k : Nat × Nat) :
    Option (BlockHolder × LruCacheM) :=
  match shardLookup
      (lru.shards.getD (shardOf lru h) { capacity := 0, entries := [] }) k with
  | some (holder, s') =>
    some (holder, { shards := lru.shards.set (shardOf lru h) s' })
  | none => none

/-- Modelled from the spec: LruCache::insert: route to the shard of the
hash and insert there, returning the pinned handle over the new block. -/
def LruCacheM.insert (lru : LruCacheM) (k : Nat × Nat) (h : Nat)
    (charge : Nat) (b : Block) : BlockHolder × LruCacheM :=
  (⟨b⟩,
    { shards := lru.shards.set (shardOf lru h)
        (shardInsert
          (lru.shards.getD (shardOf lru h) { capacity := 0, entries := [] })
          k charge b) })

/-- The block cache facade of block_cache.rs over the modelled LruCache.
The DefaultHasher inside BlockCache::hash is std library code outside the
excerpt; the hash is therefore an explicit function parameter, the same
deterministic function for every operation of one cache. -/
structure BlockCacheM where
  inner : LruCacheM
deriving DecidableEq, Repr

/-- Embeds BlockCache::new. -/
def BlockCacheM.new (capacity : Nat) : BlockCacheM :=
  ⟨LruCacheM.new CACHE_SHARD_BITS capacity DEFAULT_OBJECT_POOL_SIZE⟩

/-- Embeds BlockCache::get: a pure lookup routed through the hash of the
key; it never triggers a load. -/
def BlockCacheM.get (hasher : Nat → Nat → Nat) (c : BlockCacheM)
    (sst_id block_idx : Nat) : Option (BlockHolder × BlockCacheM) :=
  (c.inner.lookup (hasher sst_id block_idx) (sst_id, block_idx)).map
    (fun p => (p.1, ⟨p.2⟩))

/-- Embeds BlockCache::insert: admit the block under the hash of the key
with block.len() as charge. -/
def BlockCacheM.insert (hasher : Nat → Nat → Nat) (c : BlockCacheM)
    (sst_id block_idx : Nat) (b : Block) : BlockHolder × BlockCacheM :=
  ((c.inner.insert (sst_id, block_idx) (hasher sst_id block_idx) b.length b).1,
    ⟨(c.inner.insert (sst_id, block_idx) (hasher sst_id block_idx) b.length b).2⟩)

theorem removeLastUnpinned_head_pinned {e : Entry} (l : List Entry)
    (h : e.refs ≠ 0) :
    removeLastUnpinned (e :: l) = (removeLastUnpinned l).map (e :: ·) := by
  show (match removeLastUnpinned l with
    | some rest' => some (e :: rest')
    | none => if e.refs = 0 then some l else none) =
    (removeLastUnpinned l).map (e :: ·)
  rcases removeLastUnpinned l with _ | l'
  · simp [h]
  · simp

theorem evictLoop_succ (fuel : Nat) (s : Shard) :
    evictLoop (fuel + 1) s =
      if unpinnedCharge s.entries ≤ s.capacity then s
      else
        match removeLastUnpinned s.entries with
        | some entries' => evictLoop fuel { s with entries := entries' }
        | none => s := rfl

theorem evictLoop_head_pinned {e : Entry} :
    ∀ (fuel : Nat) (s : Shard) (l : List Entry),
      s.entries = e :: l → e.refs ≠ 0 →
      ∃ l', (evictLoop fuel s).entries = e :: l' := by
  intro fuel
  induction fuel with
  | zero =>
    intro s l hs _
    exact ⟨l, hs⟩
  | succ fuel ih =>
    intro s l hs hpin
    by_cases hch : unpinnedCharge s.entries ≤ s.capacity
    · rw [show evictLoop (fuel + 1) s = s by
        rw [evictLoop_succ, if_pos hch]]
      exact ⟨l, hs⟩
    · rcases hr : removeLastUnpinned l with _ | l2
      · rw [show evictLoop (fuel + 1) s = s by
          rw [evictLoop_succ, if_neg hch, hs,
            removeLastUnpinned_head_pinned _ hpin, hr]
          rfl]
        exact ⟨l, hs⟩
      · rw [show evictLoop (fuel + 1) s = evictLoop fuel { s with entries := e :: l2 } by
          rw [evictLoop_succ, if_neg hch, hs,
            removeLastUnpinned_head_pinned _ hpin, hr]
          rfl]
        exact ih { s with entries := e :: l2 } l2 rfl hpin

/-- After shardInsert, the new entry sits pinned at the MRU end and the
shard's lookup of the key answers a holder over the inserted block. -/
theorem shardLookup_after_insert (s : Shard) (k : Nat × Nat) (charge : Nat)
    (b : Block) :
    ∃ s2, shardLookup (shardInsert s k charge b) k = some (⟨b⟩, s2) := by
  obtain ⟨l', hentries⟩ := evictLoop_head_pinned
    (e := { key := k, block := b, charge := charge, refs := 1 })
    (({ key := k, block := b, charge := charge, refs := 1 } : Entry)
      :: s.entries.filter (fun e => e.key != k)).length
    { s with entries :=
      ({ key := k, block := b, charge := charge, refs := 1 } : Entry)
        :: s.entries.filter (fun e => e.key != k) }
    (s.entries.filter (fun e => e.key != k)) rfl (by simp)
  have hfind : (shardInsert s k charge b).entries.find?
      (fun e => e.key == k) =
      some { key := k, block := b, charge := charge, refs := 1 } := by
    rw [show (shardInsert s k charge b).entries =
      ({ key := k, block := b, charge := charge, refs := 1 } : Entry) :: l'
      from hentries]
    rw [List.find?_cons_of_pos]
    simp
  refine ⟨{ capacity := (shardInsert s k charge b).capacity,
            entries :=
              ({ key := k, block := b, charge := charge, refs := 1 + 1 } : Entry)
                :: (shardInsert s k charge b).entries.filter
                  (fun x => x.key != k) }, ?_⟩
  unfold shardLookup
  rw [hfind]

/-- Routing through the same hash, a lookup right after an insert of the
same key finds the freshly admitted pinned entry. -/
theorem lookup_after_insert (lru : LruCacheM) (k : Nat × Nat) (h : Nat)
    (charge : Nat) (b : Block) (hlen : 0 < lru.shards.length) :
    ∃ lru', ((lru.insert k h charge b).2).lookup h k = some (⟨b⟩, lru') := by
  obtain ⟨s2, hlook⟩ := shardLookup_after_insert
    (lru.shards.getD (shardOf lru h) { capacity := 0, entries := [] }) k charge b
  have hidx : shardOf lru h < lru.shards.length := Nat.mod_lt _ hlen
  have hof : shardOf (lru.insert k h charge b).2 h = shardOf lru h := by
    unfold LruCacheM.insert shardOf
    rw [List.length_set]
  have hgd : ((lru.insert k h charge b).2).shards.getD
      (shardOf (lru.insert k h charge b).2 h) { capacity := 0, entries := [] } =
      shardInsert (lru.shards.getD (shardOf lru h) { capacity := 0, entries := [] })
        k charge b := by
    rw [hof]
    show (lru.shards.set (shardOf lru h) _).getD (shardOf lru h) _ = _
    exact MergeSort.getD_set_eq _ _ _ _ hidx
  refine ⟨{ shards :=
              ((lru.insert k h charge b).2).shards.set
                (shardOf (lru.insert k h charge b).2 h) s2 }, ?_⟩
  unfold LruCacheM.lookup
  rw [hgd, hlook]

/-- C10: insert followed by get on the same key is a round trip: after
BlockCache::insert(sst_id, block_idx, block), BlockCache::get(sst_id,
block_idx) returns some BlockHolder whose dereference is exactly the
inserted block's bytes, both operations routing the key through the same
deterministic hash. -/
theorem block_cache_insert_get_roundtrip
    (hasher : Nat → Nat → Nat) (c : BlockCacheM) (sst_id block_idx : Nat)
    (b : Block)
    (hshards : 0 < c.inner.shards.length) :
    ∃ c', BlockCacheM.get hasher
        (BlockCacheM.insert hasher c sst_id block_idx b).2 sst_id block_idx =
      some (⟨b⟩, c') := by
  obtain ⟨lru', hl⟩ := lookup_after_insert c.inner (sst_id, block_idx)
    (hasher sst_id block_idx) b.length b hshards
  refine ⟨⟨lru'⟩, ?_⟩
  unfold BlockCacheM.get
  rw [show (BlockCacheM.insert hasher c sst_id block_idx b).2.inner =
    (c.inner.insert (sst_id, block_idx) (hasher sst_id block_idx) b.length b).2
    from rfl]
  rw [hl]
  rfl

/-- Witness for C10: a concrete cache, hash function, key and block. -/
theorem block_cache_insert_get_roundtrip_witness :
    ∃ c', BlockCacheM.get (fun a b => a * 31 + b)
        (BlockCacheM.insert (fun a b => a * 31 + b)
          (BlockCacheM.new 100) 7 3 [1, 2, 3]).2 7 3 =
      some (⟨[1, 2, 3]⟩, c') :=
  block_cache_insert_get_roundtrip (fun a b => a * 31 + b)
    (BlockCacheM.new 100) 7 3 [1, 2, 3] (by decide)

/-- Modelled from the spec: the phases of one get_or_insert_with caller
(a task) for its fixed key: not yet called; running the loader after a
Miss; awaiting another caller's pending request (WaitPendingRequest);
returned with a block; returned with an error. -/
inductive Phase where
  | start
  | loading
  | waiting
  | done
  | failed
  deriving DecidableEq

/-- Modelled from the spec: one get_or_insert_with caller: the key it
asks for and the behaviour of the loader future it was given (whether it
would succeed and with which block), plus its current phase. -/
structure CTask where
  key : Nat × Nat
  loaderOk : Bool
  loaderBlock : Block
  phase : Phase
  deriving DecidableEq

/-- Modelled from the spec: the shared cache state seen by all
get_or_insert_with callers: which keys hold a block (resident), which
keys have a pending request registered, and the tasks. -/
structure SysState where
  resident : List ((Nat × Nat) × Block)
  pending : List (Nat × Nat)
  tasks : List CTask
  deriving DecidableEq

/-- The block resident under a key, if any. -/
def residentAt (s : SysState) (k : Nat × Nat) : Option Block :=
  (s.resident.find? (fun p => decide (p.1 = k))).map (fun p => p.2)

/-- Modelled from the spec: the interleaving steps of get_or_insert_with.
Each constructor advances exactly one task, following the match in
BlockCache::get_or_insert_with: a Cached hit returns at once; a lookup
that finds a pending request waits; a Miss registers the pending request
and runs the loader; a successful loader inserts the block (clearing the
pending request and waking waiters); a failed loader clears the pending
request and returns the error; a waiter wakes with the inserted block,
or with an error once the request is gone without the block. -/
inductive Step : SysState → SysState → Prop where
  | hit (s : SysState) (i : Nat) (t : CTask) (b : Block) :
      s.tasks.get? i = some t → t.phase = Phase.start →
      residentAt s t.key = some b →
      Step s { resident := s.resident, pending := s.pending,
               tasks := s.tasks.set i { t with phase := Phase.done } }
  | wait (s : SysState) (i : Nat) (t : CTask) :
      s.tasks.get? i = some t → t.phase = Phase.start →
      residentAt s t.key = none → t.key ∈ s.pending →
      Step s { resident := s.resident, pending := s.pending,
               tasks := s.tasks.set i { t with phase := Phase.waiting } }
  | miss (s : SysState) (i : Nat) (t : CTask) :
      s.tasks.get? i = some t → t.phase = Phase.start →
      residentAt s t.key = none → t.key ∉ s.pending →
      Step s { resident := s.resident, pending := t.key :: s.pending,
               tasks := s.tasks.set i { t with phase := Phase.loading } }
  | load_ok (s : SysState) (i : Nat) (t : CTask) :
      s.tasks.get? i = some t → t.phase = Phase.loading →
      t.loaderOk = true →
      Step s { resident := (t.key, t.loaderBlock) :: s.resident,
               pending := s.pending.filter (fun k => ! decide (k = t.key)),
               tasks := s.tasks.set i { t with phase := Phase.done } }
  | load_err (s : SysState) (i : Nat) (t : CTask) :
      s.tasks.get? i = some t → t.phase = Phase.loading →
      t.loaderOk = false →
      Step s { resident := s.resident,
               pending := s.pending.filter (fun k => ! decide (k = t.key)),
               tasks := s.tasks.set i { t with phase := Phase.failed } }
  | waiter_ok (s : SysState) (i : Nat) (t : CTask) (b : Block) :
      s.tasks.get? i = some t → t.phase = Phase.waiting →
      residentAt s t.key = some b →
      Step s { resident := s.resident, pending := s.pending,
               tasks := s.tasks.set i { t with phase := Phase.done } }
  | waiter_err (s : SysState) (i : Nat) (t : CTask) :
      s.tasks.get? i = some t → t.phase = Phase.waiting →
      t.key ∉ s.pending → residentAt s t.key = none →
      Step s { resident := s.resident, pending := s.pending,
               tasks := s.tasks.set i { t with phase := Phase.failed } }

/-- A state reachable by any interleaving of caller steps. -/
def Reachable (s s2 : SysState) : Prop := Relation.ReflTransGen Step s s2

/-- An initial state: no pending request and no caller has started. -/
def InitOk (s : SysState) : Prop :=
  s.pending = [] ∧ ∀ i t, s.tasks.get? i = some t → t.phase = Phase.start

/-- At most one loader is in flight per key: two tasks both in the
loading phase for the same key are the same task. -/
def atMostOneLoader (s : SysState) : Prop :=
  ∀ i j ti tj, s.tasks.get? i = some ti → s.tasks.get? j = some tj →
    ti.phase = Phase.loading → tj.phase = Phase.loading →
    ti.key = tj.key → i = j

/-- A task running the loader holds the pending-request slot of its key. -/
def loaderPending (s : SysState) : Prop :=
  ∀ i t, s.tasks.get? i = some t → t.phase = Phase.loading →
    t.key ∈ s.pending

/-- The inductive invariant for the single-flight proof. -/
def CacheInv (s : SysState) : Prop := atMostOneLoader s ∧ loaderPending s

theorem get?_set_self {α : Type _} :
    ∀ (l : List α) (i : Nat) (a : α), i < l.length →
      (l.set i a).get? i = some a := by
  intro l
  induction l with
  | nil => intro i a h; simp at h
  | cons x xs ih =>
    intro i a h
    cases i with
    | zero => rfl
    | succ i =>
      simp only [List.set_cons_succ, List.get?_cons_succ]
      exact ih i a (by simpa using h)

theorem get?_set_ne {α : Type _} :
    ∀ (l : List α) {i j : Nat} (a : α), i ≠ j →
      (l.set i a).get? j = l.get? j := by
  intro l
  induction l with
  | nil => intro i j a _; rfl
  | cons x xs ih =>
    intro i j a h
    cases i with
    | zero =>
      cases j with
      | zero => exact absurd rfl h
      | succ j => rfl
    | succ i =>
      cases j with
      | zero => rfl
      | succ j =>
        simp only [List.set_cons_succ, List.get?_cons_succ]
        exact ih a (fun hc => h (by rw [hc]))

theorem get?_lt {α : Type _} :
    ∀ {l : List α} {i : Nat} {a : α}, l.get? i = some a → i < l.length := by
  intro l
  induction l with
  | nil => intro i a h; cases i <;> exact Option.noConfusion h
  | cons x xs ih =>
    intro i a h
    cases i with
    | zero => exact Nat.succ_pos _
    | succ i => exact Nat.succ_lt_succ (ih (by simpa using h))

theorem get?_set_elim {α : Type _} {l : List α} {i j : Nat} {a b : α}
    (h : (l.set i a).get? j = some b) :
    (j = i ∧ b = a) ∨ (j ≠ i ∧ l.get? j = some b) := by
  by_cases hij : j = i
  · subst hij
    have hlen : j < l.length := by
      have hl := get?_lt h
      simpa using hl
    rw [get?_set_self l j a hlen] at h
    exact Or.inl ⟨rfl, (Option.some.inj h).symm⟩
  · have he := get?_set_ne l a (fun hc => hij hc.symm)
    rw [he] at h
    exact Or.inr ⟨hij, h⟩

theorem mem_filter_ne {k t : Nat × Nat} {l : List (Nat × Nat)}
    (hmem : k ∈ l) (hne : k ≠ t) :
    k ∈ l.filter (fun x => ! decide (x = t)) := by
  refine List.mem_filter.mpr ⟨hmem, ?_⟩
  simp [hne]

theorem not_mem_filter_self {t : Nat × Nat} {l : List (Nat × Nat)} :
    t ∉ l.filter (fun x => ! decide (x = t)) := by
  intro h
  have hp := (List.mem_filter.mp h).2
  simp at hp

/-- Every step preserves the single-flight invariant. -/
theorem step_inv {s s2 : SysState} (hstep : Step s s2) (hinv : CacheInv s) :
    CacheInv s2 := by
  obtain ⟨hone, hpend⟩ := hinv
  cases hstep with
  | hit i t b ht hph hres =>
    refine ⟨?_, ?_⟩
    · intro a c ta tc ha hc hpa hpc hkey
      rcases get?_set_elim ha with ⟨_, rfl⟩ | ⟨_, ha2⟩
      · exact Phase.noConfusion hpa
      · rcases get?_set_elim hc with ⟨_, rfl⟩ | ⟨_, hc2⟩
        · exact Phase.noConfusion hpc
        · exact hone a c ta tc ha2 hc2 hpa hpc hkey
    · intro a ta ha hpa
      rcases get?_set_elim ha with ⟨_, rfl⟩ | ⟨_, ha2⟩
      · exact Phase.noConfusion hpa
      · exact hpend a ta ha2 hpa
  | wait i t ht hph hres hmem =>
    refine ⟨?_, ?_⟩
    · intro a c ta tc ha hc hpa hpc hkey
      rcases get?_set_elim ha with ⟨_, rfl⟩ | ⟨_, ha2⟩
      · exact Phase.noConfusion hpa
      · rcases get?_set_elim hc with ⟨_, rfl⟩ | ⟨_, hc2⟩
        · exact Phase.noConfusion hpc
        · exact hone a c ta tc ha2 hc2 hpa hpc hkey
    · intro a ta ha hpa
      rcases get?_set_elim ha with ⟨_, rfl⟩ | ⟨_, ha2⟩
      · exact Phase.noConfusion hpa
      · exact hpend a ta ha2 hpa
  | miss i t ht hph hres hnp =>
    refine ⟨?_, ?_⟩
    · intro a c ta tc ha hc hpa hpc hkey
      rcases get?_set_elim ha with ⟨rfl, rfl⟩ | ⟨hna, ha2⟩
      · rcases get?_set_elim hc with ⟨rfl, rfl⟩ | ⟨hnc, hc2⟩
        · rfl
        · have hmem := hpend c tc hc2 hpc
          rw [← hkey] at hmem
          exact absurd hmem hnp
      · rcases get?_set_elim hc with ⟨rfl, rfl⟩ | ⟨hnc, hc2⟩
        · have hmem := hpend a ta ha2 hpa
          rw [hkey] at hmem
          exact absurd hmem hnp
        · exact hone a c ta tc ha2 hc2 hpa hpc hkey
    · intro a ta ha hpa
      rcases get?_set_elim ha with ⟨rfl, rfl⟩ | ⟨hna, ha2⟩
      · exact List.mem_cons_self _ _
      · exact List.mem_cons_of_mem _ (hpend a ta ha2 hpa)
  | load_ok i t ht hph hok =>
    refine ⟨?_, ?_⟩
    · intro a c ta tc ha hc hpa hpc hkey
      rcases get?_set_elim ha with ⟨_, rfl⟩ | ⟨hna, ha2⟩
      · exact Phase.noConfusion hpa
      · rcases get?_set_elim hc with ⟨_, rfl⟩ | ⟨hnc, hc2⟩
        · exact Phase.noConfusion hpc
        · exact hone a c ta tc ha2 hc2 hpa hpc hkey
    · intro a ta ha hpa
      rcases get?_set_elim ha with ⟨_, rfl⟩ | ⟨hna, ha2⟩
      · exact Phase.noConfusion hpa
      · have hmem := hpend a ta ha2 hpa
        have hkne : ta.key ≠ t.key := by
          intro hk
          exact hna (hone a i ta t ha2 ht hpa hph hk)
        exact mem_filter_ne hmem hkne
  | load_err i t ht hph hbad =>
    refine ⟨?_, ?_⟩
    · intro a c ta tc ha hc hpa hpc hkey
      rcases get?_set_elim ha with ⟨_, rfl⟩ | ⟨hna, ha2⟩
      · exact Phase.noConfusion hpa
      · rcases get?_set_elim hc with ⟨_, rfl⟩ | ⟨hnc, hc2⟩
        · exact Phase.noConfusion hpc
        · exact hone a c ta tc ha2 hc2 hpa hpc hkey
    · intro a ta ha hpa
      rcases get?_set_elim ha with ⟨_, rfl⟩ | ⟨hna, ha2⟩
      · exact Phase.noConfusion hpa
      · have hmem := hpend a ta ha2 hpa
        have hkne : ta.key ≠ t.key := by
          intro hk
          exact hna (hone a i ta t ha2 ht hpa hph hk)
        exact mem_filter_ne hmem hkne
  | waiter_ok i t b ht hph hres =>
    refine ⟨?_, ?_⟩
    · intro a c ta tc ha hc hpa hpc hkey
      rcases get?_set_elim ha with ⟨_, rfl⟩ | ⟨_, ha2⟩
      · exact Phase.noConfusion hpa
      · rcases get?_set_elim hc with ⟨_, rfl⟩ | ⟨_, hc2⟩
        · exact Phase.noConfusion hpc
        · exact hone a c ta tc ha2 hc2 hpa hpc hkey
    · intro a ta ha hpa
      rcases get?_set_elim ha with ⟨_, rfl⟩ | ⟨_, ha2⟩
      · exact Phase.noConfusion hpa
      · exact hpend a ta ha2 hpa
  | waiter_err i t ht hph hnp hres =>
    refine ⟨?_, ?_⟩
    · intro a c ta tc ha hc hpa hpc hkey
      rcases get?_set_elim ha with ⟨_, rfl⟩ | ⟨_, ha2⟩
      · exact Phase.noConfusion hpa
      · rcases get?_set_elim hc with ⟨_, rfl⟩ | ⟨_, hc2⟩
        · exact Phase.noConfusion hpc
        · exact hone a c ta tc ha2 hc2 hpa hpc hkey
    · intro a ta ha hpa
      rcases get?_set_elim ha with ⟨_, rfl⟩ | ⟨_, ha2⟩
      · exact Phase.noConfusion hpa
      · exact hpend a ta ha2 hpa

/-- An initial state satisfies the invariant. -/
theorem init_inv {s : SysState} (h : InitOk s) : CacheInv s := by
  obtain ⟨_, hs⟩ := h
  refine ⟨?_, ?_⟩
  · intro a c ta tc ha hc hpa hpc hkey
    exact Phase.noConfusion ((hs a ta ha).symm.trans hpa)
  · intro a ta ha hpa
    exact Phase.noConfusion ((hs a ta ha).symm.trans hpa)

/-- The invariant holds in every reachable state. -/
theorem reachable_inv {s0 s : SysState} (hinit : InitOk s0)
    (hr : Reachable s0 s) : CacheInv s := by
  induction hr with
  | refl => exact init_inv hinit
  | tail _ hstep ih => exact step_inv hstep ih

/-- C2: single flight per key. In every state reachable from an initial
state (no pending request registered, no caller started), at most one
task is running the loader for any given key; and no step ever moves a
task from the waiting phase into the loading phase, so a waiter awaiting
a pending request never runs the loader itself. -/
theorem block_cache_single_flight :
    (∀ s0 s, InitOk s0 → Reachable s0 s → atMostOneLoader s) ∧
    (∀ s s2, Step s s2 → ∀ i t t', s.tasks.get? i = some t →
      s2.tasks.get? i = some t' → t.phase = Phase.waiting →
      t'.phase ≠ Phase.loading) := by
  constructor
  · intro s0 s hinit hr
    exact (reachable_inv hinit hr).1
  · intro s s2 hstep i t t' ht ht' hw
    cases hstep with
    | hit a u b hu hph hres =>
      rcases get?_set_elim ht' with ⟨rfl, rfl⟩ | ⟨_, ht2⟩
      · have hut : t = u := Option.some.inj (ht.symm.trans hu)
        rw [hut] at hw
        exact Phase.noConfusion (hph.symm.trans hw)
      · have htt : t' = t := Option.some.inj (ht2.symm.trans ht)
        rw [htt, hw]
        intro hc
        exact Phase.noConfusion hc
    | wait a u hu hph hres hmem =>
      rcases get?_set_elim ht' with ⟨rfl, rfl⟩ | ⟨_, ht2⟩
      · intro hc
        exact Phase.noConfusion hc
      · have htt : t' = t := Option.some.inj (ht2.symm.trans ht)
        rw [htt, hw]
        intro hc
        exact Phase.noConfusion hc
    | miss a u hu hph hres hnp =>
      rcases get?_set_elim ht' with ⟨rfl, rfl⟩ | ⟨_, ht2⟩
      · have hut : t = u := Option.some.inj (ht.symm.trans hu)
        rw [hut] at hw
        exact Phase.noConfusion (hph.symm.trans hw)
      · have htt : t' = t := Option.some.inj (ht2.symm.trans ht)
        rw [htt, hw]
        intro hc
        exact Phase.noConfusion hc
    | load_ok a u hu hph hok =>
      rcases get?_set_elim ht' with ⟨rfl, rfl⟩ | ⟨_, ht2⟩
      · intro hc
        exact Phase.noConfusion hc
      · have htt : t' = t := Option.some.inj (ht2.symm.trans ht)
        rw [htt, hw]
        intro hc
        exact Phase.noConfusion hc
    | load_err a u hu hph hbad =>
      rcases get?_set_elim ht' with ⟨rfl, rfl⟩ | ⟨_, ht2⟩
      · intro hc
        exact Phase.noConfusion hc
      · have htt : t' = t := Option.some.inj (ht2.symm.trans ht)
        rw [htt, hw]
        intro hc
        exact Phase.noConfusion hc
    | waiter_ok a u b hu hph hres =>
      rcases get?_set_elim ht' with ⟨rfl, rfl⟩ | ⟨_, ht2⟩
      · intro hc
        exact Phase.noConfusion hc
      · have htt : t' = t := Option.some.inj (ht2.symm.trans ht)
        rw [htt, hw]
        intro hc
        exact Phase.noConfusion hc
    | waiter_err a u hu hph hnp hres =>
      rcases get?_set_elim ht' with ⟨rfl, rfl⟩ | ⟨_, ht2⟩
      · intro hc
        exact Phase.noConfusion hc
      · have htt : t' = t := Option.some.inj (ht2.symm.trans ht)
        rw [htt, hw]
        intro hc
        exact Phase.noConfusion hc

/-- A caller for key (7, 3) whose loader would succeed with block [1, 2]. -/
def wTask : CTask :=
  { key := (7, 3), loaderOk := true, loaderBlock := [1, 2], phase := Phase.start }

/-- Two concurrent callers for the same key, nothing resident or pending. -/
def wCInit : SysState :=
  { resident := [], pending := [], tasks := [wTask, wTask] }

/-- The state after the first caller misses and becomes the loader. -/
def wCLoad : SysState :=
  { resident := [], pending := [(7, 3)],
    tasks := [{ wTask with phase := Phase.loading }, wTask] }

theorem block_cache_single_flight_witness : atMostOneLoader wCLoad := by
  have hstep : Step wCInit wCLoad := by
    have h := Step.miss wCInit 0 wTask rfl rfl rfl (by decide)
    exact h
  have hinit : InitOk wCInit := by
    refine ⟨rfl, ?_⟩
    intro i t ht
    match i, ht with
    | 0, ht => cases ht; rfl
    | 1, ht => cases ht; rfl
    | Nat.succ (Nat.succ n), ht => exact Option.noConfusion ht
  exact block_cache_single_flight.1 wCInit wCLoad hinit
    (Relation.ReflTransGen.single hstep)

/-- A key at the head of the resident list is found there. -/
theorem residentAt_head (s : SysState) (k k2 : Nat × Nat) (b : Block)
    (r : List ((Nat × Nat) × Block)) (hres : s.resident = (k, b) :: r)
    (hk : k = k2) : residentAt s k2 = some b := by
  unfold residentAt
  rw [hres, List.find?_cons_of_pos]
  · rfl
  · exact decide_eq_true hk

/-- C5: a loader failure clears the pending slot before the error
returns, waiters observe it as an error, and the key is not poisoned.
If task i holds the loading phase for its key with a failing loader, the
key not resident, then one load_err step reaches a state where task i
has failed (the error is surfaced), the key's pending slot is cleared
and the key is still not resident; every task that was waiting on that
key can then step to the failed phase (the dropped sender surfaces as a
WaiterError); and a fresh caller j for the same key with a succeeding
loader misses (registering itself as the new loader) and loads, ending
done with its block resident under the key. -/
theorem block_cache_loader_failure
    (s : SysState) (i j : Nat) (t u : CTask)
    (ht : s.tasks.get? i = some t) (hload : t.phase = Phase.loading)
    (hfail : t.loaderOk = false)
    (hu : s.tasks.get? j = some u) (hustart : u.phase = Phase.start)
    (hukey : u.key = t.key) (huok : u.loaderOk = true)
    (hres : residentAt s t.key = none) :
    ∃ s1 s2 s3,
      Step s s1 ∧
      s1.tasks.get? i = some { t with phase := Phase.failed } ∧
      t.key ∉ s1.pending ∧
      residentAt s1 t.key = none ∧
      (∀ m v, s.tasks.get? m = some v → v.phase = Phase.waiting →
        v.key = t.key → ∃ sw, Step s1 sw ∧
          sw.tasks.get? m = some { v with phase := Phase.failed }) ∧
      Step s1 s2 ∧ Step s2 s3 ∧
      s3.tasks.get? j = some { u with phase := Phase.done } ∧
      residentAt s3 t.key = some u.loaderBlock := by
  have hij : j ≠ i := by
    intro hji
    rw [hji, ht] at hu
    have htu := Option.some.inj hu
    rw [← htu] at hustart
    exact Phase.noConfusion (hustart.symm.trans hload)
  have hi : i < s.tasks.length := get?_lt ht
  have hj : j < s.tasks.length := get?_lt hu
  have hj1 : j < (s.tasks.set i { t with phase := Phase.failed }).length := by
    rw [List.length_set]
    exact hj
  have hj2 : j < ((s.tasks.set i { t with phase := Phase.failed }).set j
      { u with phase := Phase.loading }).length := by
    rw [List.length_set, List.length_set]
    exact hj
  have h1 : (s.tasks.set i { t with phase := Phase.failed }).get? j = some u := by
    rw [get?_set_ne s.tasks _ (fun hc => hij hc.symm)]
    exact hu
  refine ⟨_, _, _, Step.load_err s i t ht hload hfail,
    get?_set_self _ _ _ hi, not_mem_filter_self, hres,
    ?_,
    Step.miss _ j u h1 hustart (by rw [hukey]; exact hres)
      (by rw [hukey]; exact not_mem_filter_self),
    Step.load_ok _ j { u with phase := Phase.loading }
      (get?_set_self _ _ _ hj1) rfl huok,
    get?_set_self _ _ _ hj2,
    residentAt_head _ u.key t.key u.loaderBlock _ rfl hukey⟩
  intro m v hmv hvw hvk
  have hmi : m ≠ i := by
    intro hmi
    rw [hmi, ht] at hmv
    have hvt := Option.some.inj hmv
    rw [← hvt] at hvw
    exact Phase.noConfusion (hvw.symm.trans hload)
  have hm1 : (s.tasks.set i { t with phase := Phase.failed }).get? m = some v := by
    rw [get?_set_ne s.tasks _ (fun hc => hmi hc.symm)]
    exact hmv
  have hmlt : m < (s.tasks.set i { t with phase := Phase.failed }).length :=
    get?_lt hm1
  exact ⟨_, Step.waiter_err _ m v hm1 hvw
      (by rw [hvk]; exact not_mem_filter_self)
      (by rw [hvk]; exact hres),
    get?_set_self _ _ _ hmlt⟩

/-- The failing loader for key (7, 3). -/
def wTFail : CTask :=
  { key := (7, 3), loaderOk := false, loaderBlock := [], phase := Phase.loading }

/-- A later caller for the same key whose loader succeeds with block [9]. -/
def wTRetry : CTask :=
  { key := (7, 3), loaderOk := true, loaderBlock := [9], phase := Phase.start }

/-- A caller already awaiting the pending request for (7, 3). -/
def wTWait : CTask :=
  { key := (7, 3), loaderOk := true, loaderBlock := [], phase := Phase.waiting }

/-- Task 0 is mid-load for (7, 3) and about to fail; task 1 has not
started; task 2 is waiting on the pending request. -/
def wFailInit : SysState :=
  { resident := [], pending := [(7, 3)], tasks := [wTFail, wTRetry, wTWait] }

theorem block_cache_loader_failure_witness :
    ∃ s1 s2 s3,
      Step wFailInit s1 ∧
      s1.tasks.get? 0 = some { wTFail with phase := Phase.failed } ∧
      wTFail.key ∉ s1.pending ∧
      residentAt s1 wTFail.key = none ∧
      (∀ m v, wFailInit.tasks.get? m = some v → v.phase = Phase.waiting →
        v.key = wTFail.key → ∃ sw, Step s1 sw ∧
          sw.tasks.get? m = some { v with phase := Phase.failed }) ∧
      Step s1 s2 ∧ Step s2 s3 ∧
      s3.tasks.get? 1 = some { wTRetry with phase := Phase.done } ∧
      residentAt s3 wTFail.key = some wTRetry.loaderBlock :=
  block_cache_loader_failure wFailInit 0 1 wTFail wTRetry rfl rfl rfl rfl
    rfl rfl rfl rfl

end Hummock
